import Mathlib

/-!
# Baile: a nonce-free AEAD mode over a keyed, seekable XOF

A shallow embedding of `baile/baile.c` (with the declarations of `baile/baile.h`
and the call sites of `main.c`).

* Caller memory is a byte-addressed map `Mem`; a pointer is an address, `0` is
  the null pointer.  Every store into a `uint8_t` object truncates to 8 bits.
* `size_t` / `uint64_t` arithmetic is done on `Nat` with an explicit
  reduction modulo `2 ^ 64`.
* Locals (`h`, `key2`, `buf`, `tmp`) live outside caller memory; their
  indeterminate initial contents are an input (`Scratch`) and their final
  contents are part of the result.
* The BLAKE3 primitive is not part of the repository: its output function is a
  parameter (`Host.xof`).
-/

namespace Baile

/-! ## Machine model -/

/-- Byte-addressed caller memory. -/
abbrev Mem := Nat → Nat

/-- Number of values of a 64-bit unsigned integer, `2 ^ 64`. -/
abbrev SIZE : Nat := 18446744073709551616

/-- Unsigned 64-bit addition. -/
def add64 (a b : Nat) : Nat := (a % SIZE + b % SIZE) % SIZE

/-- Unsigned 64-bit subtraction. -/
def sub64 (a b : Nat) : Nat := (a % SIZE + SIZE - b % SIZE) % SIZE

/-- Store into one `uint8_t` cell. -/
def storeByte (m : Mem) (p v : Nat) : Mem :=
  fun a => if a = p then v % 256 else m a

/-- The `n` bytes at `p`, `p + 1`, ... -/
def readBytes (m : Mem) (p n : Nat) : List Nat :=
  (List.range n).map (fun i => m (p + i))

/-- Store the bytes of `l` at `p`, `p + 1`, ... in that order. -/
def writeBytes (m : Mem) (p : Nat) : List Nat → Mem
  | [] => m
  | b :: bs => writeBytes (storeByte m p b) (p + 1) bs

/-- Compile-time and link-time environment of the library: the output function
of the hash primitive (key, message, output index ↦ output byte) and the byte
order of the host, which selects the branch of `xor64le`. -/
structure Host where
  xof : List Nat → List Nat → Nat → Nat
  little_endian : Bool

/-- Content of a `blake3_hasher` object: either overwritten with zero bytes, or
a live state, which is determined by the key it was initialised with and the
message bytes fed so far. -/
inductive Hasher where
  | zeroed : Hasher
  | keyed (key msg : List Nat) : Hasher
  deriving DecidableEq, Repr

/-- Modelled from the spec: `blake3_hasher_init_keyed` of the external hash
primitive (keyed initialization from a 32-byte key). -/
def blake3_hasher_init_keyed (key : List Nat) : Hasher := Hasher.keyed key []

/-- Modelled from the spec: `blake3_hasher_update` of the external hash
primitive (incremental message absorption of arbitrary length). -/
def blake3_hasher_update (h : Hasher) (input : List Nat) : Hasher :=
  match h with
  | Hasher.keyed key msg => Hasher.keyed key (msg ++ input)
  | Hasher.zeroed => Hasher.zeroed

/-- Output byte number `i` of the stream of a hasher. -/
def hasherOut (P : Host) (h : Hasher) (i : Nat) : Nat :=
  match h with
  | Hasher.keyed key msg => P.xof key msg i
  | Hasher.zeroed => P.xof [] [] i

/-- Modelled from the spec: `blake3_hasher_finalize_seek` of the external hash
primitive (random-access finalization): the `n` bytes of the output stream
starting at absolute offset `off`, as stored into a `uint8_t` array. -/
def blake3_hasher_finalize_seek (P : Host) (h : Hasher) (off n : Nat) : List Nat :=
  (List.range n).map (fun j => hasherOut P h (off + j) % 256)

/-- Modelled from the spec: `blake3_hasher_finalize` of the external hash
primitive (output finalization to a requested length): the first `n` bytes of
the output stream. -/
def blake3_hasher_finalize (P : Host) (h : Hasher) (n : Nat) : List Nat :=
  blake3_hasher_finalize_seek P h 0 n

/-- Overwrite the first `out.length` cells of a local array. -/
def fillLocal (a out : List Nat) : List Nat := out ++ a.drop out.length

/-! ## General tools (`baile.c`, lines 16-65) -/

/-- Little-endian host branch of `xor64le`: read the 8 bytes at offset `o` as
one little-endian 64-bit word. -/
def load64le (d : List Nat) (o : Nat) : Nat :=
  d.getD o 0 + d.getD (o + 1) 0 * 256 ^ 1 + d.getD (o + 2) 0 * 256 ^ 2
    + d.getD (o + 3) 0 * 256 ^ 3 + d.getD (o + 4) 0 * 256 ^ 4
    + d.getD (o + 5) 0 * 256 ^ 5 + d.getD (o + 6) 0 * 256 ^ 6
    + d.getD (o + 7) 0 * 256 ^ 7

/-- Little-endian host branch of `xor64le`: store a 64-bit word at offset `o`,
least significant byte first. -/
def store64le (d : List Nat) (o w : Nat) : List Nat :=
  (((((((d.set o (w % 256)).set (o + 1) ((w >>> 8) % 256)).set (o + 2) ((w >>> 16) % 256)).set
    (o + 3) ((w >>> 24) % 256)).set (o + 4) ((w >>> 32) % 256)).set (o + 5)
    ((w >>> 40) % 256)).set (o + 6) ((w >>> 48) % 256)).set (o + 7) ((w >>> 56) % 256)

/-- The `#if` branch of `xor64le`: `*(uint64_t *)dst ^= x`. -/
def xor64le_word (d : List Nat) (o x : Nat) : List Nat :=
  store64le d o ((load64le d o ^^^ (x % SIZE)) % SIZE)

/-- One statement `((uint8_t *)dst)[i] ^= x >> s` of the `#else` branch. -/
def xorByteAt (d : List Nat) (i v : Nat) : List Nat :=
  d.set i ((d.getD i 0 ^^^ v) % 256)

/-- The `#else` branch of `xor64le`. -/
def xor64le_bytes (d : List Nat) (o x : Nat) : List Nat :=
  let x := x % SIZE
  let d := xorByteAt d o x
  let d := xorByteAt d (o + 1) (x >>> 8)
  let d := xorByteAt d (o + 2) (x >>> 16)
  let d := xorByteAt d (o + 3) (x >>> 24)
  let d := xorByteAt d (o + 4) (x >>> 32)
  let d := xorByteAt d (o + 5) (x >>> 40)
  let d := xorByteAt d (o + 6) (x >>> 48)
  xorByteAt d (o + 7) (x >>> 56)

/-- XOR the little-endian encoding of `x` into the 8 bytes of `d` at offset `o`. -/
def xor64le (little_endian : Bool) (d : List Nat) (o x : Nat) : List Nat :=
  if little_endian then xor64le_word d o x else xor64le_bytes d o x

/-- The function `memzero` on a local array: fill its first `n` cells with zeros. -/
def memzero (d : List Nat) (n : Nat) : List Nat :=
  fillLocal d (List.replicate n 0)

/-- The function `memxor(dst, a, b, n)` with `dst` and `a` in caller memory and
`b` a local array: `while (n--) { *(p++) = *a++ ^ *b++; }`. -/
def memxor (m : Mem) (dst a : Nat) (b : List Nat) : Nat → Mem
  | 0 => m
  | n + 1 => memxor (storeByte m dst (m a ^^^ b.headD 0)) (dst + 1) (a + 1) b.tail n

/-- How much padding is necessary to add to `x` so that it aligns to a multiple
of 64. -/
def align64 (x : Nat) : Nat :=
  if x &&& 63 ≠ 0 then 64 - (x &&& 63) else 0

/-! ## Keystream XOR (`baile.c`, lines 70-96) -/

/-- The `while (len - off >= 64)` loop of `blake3_hasher_finalize_xor`; returns
the memory, the scratch block and `off` at loop exit. -/
def finalize_xor_loop (P : Host) (h : Hasher) (dst src len : Nat)
    (m : Mem) (buf : List Nat) (off : Nat) : Mem × List Nat × Nat :=
  if 64 ≤ sub64 len off then
    let buf := fillLocal buf (blake3_hasher_finalize_seek P h off 64)
    let m := memxor m (dst + off) (src + off) buf 64
    finalize_xor_loop P h dst src len m buf (add64 off 64)
  else (m, buf, off)
termination_by sub64 len off
decreasing_by
  simp only [sub64, add64, SIZE] at *
  omega

/-- XOR `len` bytes starting at `src` with the stream of `h`, write the result
at `dst`.  Returns the memory and the final content of the local `buf`
(`buf0` is its indeterminate initial content). -/
def blake3_hasher_finalize_xor (P : Host) (h : Hasher) (m : Mem) (dst src len : Nat)
    (buf0 : List Nat) : Mem × List Nat :=
  if len = 0 then (m, buf0)
  else
    let r := finalize_xor_loop P h dst src len m buf0 0
    let m := r.1
    let buf := r.2.1
    let off := r.2.2
    if sub64 len off ≠ 0 then
      let buf := fillLocal buf (blake3_hasher_finalize_seek P h off (sub64 len off))
      let m := memxor m (dst + off) (src + off) buf (sub64 len off)
      (m, memzero buf 64)
    else (m, memzero buf 64)

/-! ## Baile (`baile.c`, lines 102-220) -/

/-- The static buffer `zeros`. -/
def zeros : List Nat := List.replicate 64 0

/-- Contents of the locals of a call: the hash state `h`, the derived key
`key2` of `baile_tag_input`, the keystream block `buf` of
`blake3_hasher_finalize_xor` and the recomputed tag `tmp` of `baile_decrypt`. -/
structure Scratch where
  h : Hasher
  key2 : List Nat
  buf : List Nat
  tmp : List Nat

/-- Result of a call: return code, caller memory and locals on return. -/
structure Outcome where
  ret : Int
  mem : Mem
  loc : Scratch

/-- Feeds into a hasher all the input necessary to obtain the tag.  Returns
the hasher and the final content of the local `key2`. -/
def baile_tag_input (P : Host) (m : Mem) (ad ad_len text text_len key : Nat) :
    Hasher × List Nat :=
  let key2 := readBytes m key 32
  let key2 := xorByteAt key2 0 1
  let key2 := xor64le P.little_endian key2 8 ad_len
  let key2 := xor64le P.little_endian key2 16 text_len
  let h := blake3_hasher_init_keyed key2
  let key2 := memzero key2 32
  let h := blake3_hasher_update h (readBytes m ad ad_len)
  let h := blake3_hasher_update h (readBytes m text text_len)
  let h := blake3_hasher_update h (zeros.take (align64 (add64 ad_len text_len)))
  (h, key2)

/-- The C library function `memcmp` on a local array and a caller buffer already
read: zero when the first `n` bytes agree, otherwise the difference of the
first pair of bytes that differ. -/
def memcmp (a b : List Nat) : Nat → Int
  | 0 => 0
  | n + 1 =>
    if a.headD 0 = b.headD 0 then memcmp a.tail b.tail n
    else (a.headD 0 : Int) - (b.headD 0 : Int)

/-- The function `baile_encrypt`, with the parameter order of its definition in
`baile.c`. -/
def baile_encrypt (P : Host) (m : Mem) (s : Scratch)
    (ctext tag tag_len ad ad_len text text_len key : Nat) : Outcome :=
  if key = 0 then ⟨-1, m, s⟩
  else if ¬ (tag_len = 0 ∨ (tag ≠ 0 ∧ tag_len ≤ 64)) then ⟨-2, m, s⟩
  else if ¬ (ad_len = 0 ∨ ad ≠ 0) then ⟨-3, m, s⟩
  else if ¬ (text_len = 0 ∨ (ctext ≠ 0 ∧ text ≠ 0)) then ⟨-4, m, s⟩
  else if add64 ad_len text_len < ad_len % SIZE then ⟨-5, m, s⟩
  else
    let t : Mem × List Nat :=
      if tag_len ≠ 0 then
        let ti := baile_tag_input P m ad ad_len text text_len key
        (writeBytes m tag (blake3_hasher_finalize P ti.1 tag_len), ti.2)
      else (m, s.key2)
    let m := t.1
    let h := blake3_hasher_init_keyed (readBytes m key 32)
    let h := blake3_hasher_update h (readBytes m tag tag_len)
    let r := blake3_hasher_finalize_xor P h m ctext text text_len s.buf
    ⟨0, r.1, ⟨Hasher.zeroed, t.2, r.2, s.tmp⟩⟩

/-- The function `baile_decrypt`, with the parameter order of its definition in
`baile.c`. -/
def baile_decrypt (P : Host) (m : Mem) (s : Scratch)
    (text tag tag_len ad ad_len ctext text_len key : Nat) : Outcome :=
  if key = 0 then ⟨-1, m, s⟩
  else if ¬ (tag_len = 0 ∨ (tag ≠ 0 ∧ tag_len ≤ 64)) then ⟨-2, m, s⟩
  else if ¬ (ad_len = 0 ∨ ad ≠ 0) then ⟨-3, m, s⟩
  else if ¬ (text_len = 0 ∨ (ctext ≠ 0 ∧ text ≠ 0)) then ⟨-4, m, s⟩
  else if add64 ad_len text_len < ad_len % SIZE then ⟨-5, m, s⟩
  else
    let h := blake3_hasher_init_keyed (readBytes m key 32)
    let h := blake3_hasher_update h (readBytes m tag tag_len)
    let r := blake3_hasher_finalize_xor P h m text ctext text_len s.buf
    let m := r.1
    let t : List Nat × List Nat :=
      if tag_len ≠ 0 then
        let ti := baile_tag_input P m ad ad_len text text_len key
        (fillLocal s.tmp (blake3_hasher_finalize P ti.1 tag_len), ti.2)
      else (s.tmp, s.key2)
    let ret : Int := if memcmp t.1 (readBytes m tag tag_len) tag_len ≠ 0 then -6 else 0
    ⟨ret, m, ⟨Hasher.zeroed, t.2, r.2, memzero t.1 64⟩⟩

/-! ## Reference notions used in the statements -/

/-- Memory `m` with the window `[dst + lo, dst + hi)` replaced by the XOR of the
bytes of `m` at the same index of `src` with the output stream of `h`. -/
def xorWindow (P : Host) (h : Hasher) (m : Mem) (dst src lo hi : Nat) : Mem :=
  fun x =>
    if dst + lo ≤ x ∧ x < dst + hi then
      (m (src + (x - dst)) ^^^ hasherOut P h (x - dst) % 256) % 256
    else m x

/-- The regions `[p, p + n)` and `[q, q + k)` have no address in common. -/
def Sep (p n q k : Nat) : Prop := n = 0 ∨ k = 0 ∨ p + n ≤ q ∨ q + k ≤ p

instance (p n q k : Nat) : Decidable (Sep p n q k) :=
  inferInstanceAs (Decidable (n = 0 ∨ k = 0 ∨ p + n ≤ q ∨ q + k ≤ p))

/-- The five argument checks of `baile_encrypt` / `baile_decrypt` pass: `out` is
the destination text buffer, `src` the source text buffer. -/
def ArgsOk (out tag tag_len ad ad_len src text_len key : Nat) : Prop :=
  key ≠ 0 ∧ (tag_len = 0 ∨ (tag ≠ 0 ∧ tag_len ≤ 64)) ∧ (ad_len = 0 ∨ ad ≠ 0) ∧
    (text_len = 0 ∨ (out ≠ 0 ∧ src ≠ 0)) ∧ ad_len + text_len < SIZE

instance (out tag tag_len ad ad_len src text_len key : Nat) :
    Decidable (ArgsOk out tag tag_len ad ad_len src text_len key) :=
  inferInstanceAs (Decidable (key ≠ 0 ∧ (tag_len = 0 ∨ (tag ≠ 0 ∧ tag_len ≤ 64)) ∧
    (ad_len = 0 ∨ ad ≠ 0) ∧ (text_len = 0 ∨ (out ≠ 0 ∧ src ≠ 0)) ∧ ad_len + text_len < SIZE))

/-- The buffers of a call are distinct objects, except that the destination
text buffer `out` may be the very same storage as the source `src`. -/
def Layout (out tag tag_len ad ad_len src text_len key : Nat) : Prop :=
  Sep tag tag_len key 32 ∧ Sep tag tag_len ad ad_len ∧ Sep tag tag_len src text_len ∧
    Sep tag tag_len out text_len ∧ Sep out text_len key 32 ∧ Sep out text_len ad ad_len ∧
    (out = src ∨ Sep out text_len src text_len)

instance (out tag tag_len ad ad_len src text_len key : Nat) :
    Decidable (Layout out tag tag_len ad ad_len src text_len key) :=
  inferInstanceAs (Decidable (Sep tag tag_len key 32 ∧ Sep tag tag_len ad ad_len ∧
    Sep tag tag_len src text_len ∧ Sep tag tag_len out text_len ∧ Sep out text_len key 32 ∧
    Sep out text_len ad ad_len ∧ (out = src ∨ Sep out text_len src text_len)))

/-- The hash key of the tag computation, as `baile_tag_input` derives it from
the master key and the two lengths. -/
def deriveKey (little_endian : Bool) (key : List Nat) (ad_len text_len : Nat) : List Nat :=
  xor64le little_endian (xor64le little_endian (xorByteAt key 0 1) 8 ad_len) 16 text_len

/-- Reference: the message of the tag hash, `ad ++ text ++` zero bytes up to the
next multiple of 64. -/
def tagMessage (ad text : List Nat) : List Nat :=
  ad ++ text ++ List.replicate ((64 - (ad.length + text.length) % 64) % 64) 0

/-- Reference: `DeriveTag(key, ad, text)` finalized to `n` bytes. -/
def DeriveTag (P : Host) (key ad text : List Nat) (n : Nat) : List Nat :=
  (List.range n).map
    (fun i => P.xof (deriveKey P.little_endian key ad.length text.length) (tagMessage ad text) i
      % 256)

/-- Reference: byte `i` of the keystream, the output of the hash keyed with the
master key and fed the tag bytes. -/
def keystream (P : Host) (key tag : List Nat) (i : Nat) : Nat := P.xof key tag i % 256

/-- Caller memory after the tag step of `baile_encrypt` (lines 165-168). -/
def encTagMem (P : Host) (m : Mem) (tag tag_len ad ad_len text text_len key : Nat) : Mem :=
  if tag_len ≠ 0 then
    writeBytes m tag
      (blake3_hasher_finalize P (baile_tag_input P m ad ad_len text text_len key).1 tag_len)
  else m

/-- The hasher of the keystream (lines 171-172 and 203-204): keyed with the
32 bytes at `key`, fed the `tag_len` bytes at `tag`. -/
def streamHasher (m : Mem) (tag tag_len key : Nat) : Hasher :=
  blake3_hasher_update (blake3_hasher_init_keyed (readBytes m key 32)) (readBytes m tag tag_len)

/-- Reference: the text XORed byte by byte with the keystream of (`key`, `tag`),
each result stored into a `uint8_t`. -/
def xorStream (P : Host) (key tag text : List Nat) : List Nat :=
  (List.range text.length).map (fun i => (text.getD i 0 ^^^ keystream P key tag i) % 256)

/-- Reference: the validation decision table, in the order of the checks. -/
def validationTable (key tag tag_len ad ad_len text ctext text_len : Nat) : Int :=
  if key = 0 then -1
  else if 0 < tag_len ∧ (tag = 0 ∨ 64 < tag_len) then -2
  else if 0 < ad_len ∧ ad = 0 then -3
  else if 0 < text_len ∧ (text = 0 ∨ ctext = 0) then -4
  else if 2 ^ 64 - 1 < ad_len + text_len then -5
  else 0

/-- Reference: byte `i` of the little-endian encoding of `x`, `(x >> 8i) AND 0xff`. -/
def le64Byte (x i : Nat) : Nat := (x >>> (8 * i)) &&& 255

/-- The key a hasher was initialised with. -/
def hasherKey : Hasher → List Nat
  | Hasher.keyed key _ => key
  | Hasher.zeroed => []

/-- The message fed to a hasher so far. -/
def hasherMsg : Hasher → List Nat
  | Hasher.keyed _ msg => msg
  | Hasher.zeroed => []

/-- Control flow of the `while` loop of `blake3_hasher_finalize_xor` alone: the
values of `off` with which the body runs, in order, and `off` at loop exit. -/
def finalize_xor_offs (len off : Nat) : List Nat × Nat :=
  if 64 ≤ sub64 len off then
    (off :: (finalize_xor_offs len (add64 off 64)).1, (finalize_xor_offs len (add64 off 64)).2)
  else ([], off)
termination_by sub64 len off
decreasing_by
  all_goals simp only [sub64, add64, SIZE] at *
  all_goals omega

/-- The requests `(off, n)` that `blake3_hasher_finalize_xor` makes to
`blake3_hasher_finalize_seek`, in order; each is followed by a `memxor` of `n`
bytes at index `off` of `dst` and `src`. -/
def finalize_xor_requests (len : Nat) : List (Nat × Nat) :=
  if len = 0 then []
  else
    (finalize_xor_offs len 0).1.map (fun off => (off, 64))
      ++ (if sub64 len (finalize_xor_offs len 0).2 ≠ 0 then
            [((finalize_xor_offs len 0).2, sub64 len (finalize_xor_offs len 0).2)]
          else [])

/-- One request carried out: `n` stream bytes from offset `off` into `buf`,
then `memxor` of `n` bytes at index `off`. -/
def runRequest (P : Host) (h : Hasher) (dst src : Nat) (st : Mem × List Nat) (q : Nat × Nat) :
    Mem × List Nat :=
  (memxor st.1 (dst + q.1) (src + q.1)
      (fillLocal st.2 (blake3_hasher_finalize_seek P h q.1 q.2)) q.2,
    fillLocal st.2 (blake3_hasher_finalize_seek P h q.1 q.2))

/-- Modelled from the spec: the work of the tag comparison of the reference,
`memcmp(tmp, tag, tag_len)`, which the spec (section 9) describes as a
byte-by-byte compare that can short-circuit: the number of byte pairs examined
before the result is known. -/
def memcmp_work (a b : List Nat) : Nat → Nat
  | 0 => 0
  | n + 1 => if a.headD 0 = b.headD 0 then 1 + memcmp_work a.tail b.tail n else 1

/-- The two buffers that `baile_decrypt` hands to `memcmp` (line 215), for
arguments that passed validation: the local `tmp` and the `tag_len` bytes at
`tag`, both as they are once the candidate plaintext has been written. -/
def decrypt_tags (P : Host) (m : Mem) (s : Scratch)
    (text tag tag_len ad ad_len ctext text_len key : Nat) : List Nat × List Nat :=
  let h := blake3_hasher_init_keyed (readBytes m key 32)
  let h := blake3_hasher_update h (readBytes m tag tag_len)
  let r := blake3_hasher_finalize_xor P h m text ctext text_len s.buf
  let m := r.1
  let t : List Nat × List Nat :=
    if tag_len ≠ 0 then
      let ti := baile_tag_input P m ad ad_len text text_len key
      (fillLocal s.tmp (blake3_hasher_finalize P ti.1 tag_len), ti.2)
    else (s.tmp, s.key2)
  (t.1, readBytes m tag tag_len)

/-- Reference: the derived tag key in the words of the spec (section 4.1): a
copy of the 32-byte master key with the least-significant bit of byte 0
flipped, the little-endian 64-bit encoding of `ad_len` XORed into bytes 8-15
and that of `text_len` XORed into bytes 16-23. -/
def specTagKey (key : List Nat) (ad_len text_len : Nat) : List Nat :=
  (List.range 32).map (fun j =>
    if j = 0 then key.getD 0 0 ^^^ 1
    else if 8 ≤ j ∧ j < 16 then key.getD j 0 ^^^ le64Byte ad_len (j - 8)
    else if 16 ≤ j ∧ j < 24 then key.getD j 0 ^^^ le64Byte text_len (j - 16)
    else key.getD j 0)

/-- Reference: `DeriveTag(key, ad, text)` finalized to `n` bytes, in the words
of the spec: the first `n` output bytes of the hash keyed with `specTagKey` and
fed `ad ++ text ++` zero padding up to the next multiple of 64. -/
def SpecDeriveTag (P : Host) (key ad text : List Nat) (n : Nat) : List Nat :=
  (List.range n).map
    (fun i => P.xof (specTagKey key ad.length text.length) (tagMessage ad text) i % 256)

/-! ## Sample inputs -/

/-- A sample host: a toy output function on a little-endian machine. -/
def sampleHost : Host :=
  { xof := fun key msg i => key.sum + 3 * msg.sum + 7 * i + 1, little_endian := true }

/-- A sample memory: every cell holds a byte. -/
def sampleMem : Mem := fun a => (5 * a + 2) % 256

/-- Sample contents of the locals before a call. -/
def sampleScratch : Scratch :=
  { h := Hasher.zeroed, key2 := List.replicate 32 9, buf := List.replicate 64 9,
    tmp := List.replicate 64 9 }

/-- A second sample memory: the same bytes below address 400, other bytes above. -/
def sampleMem2 : Mem := fun a => if a < 400 then sampleMem a else 77

/-- Other sample contents of the locals. -/
def sampleScratch2 : Scratch :=
  { h := Hasher.keyed [1, 2, 3] [4], key2 := List.replicate 32 200, buf := List.replicate 64 1,
    tmp := List.replicate 64 2 }

/-- A sample memory holding a valid 4-byte tag at 400 for the key at 100, the
3 bytes of AD at 200 and the empty text: the memory `baile_encrypt` leaves. -/
def sampleTagged : Mem :=
  (baile_encrypt sampleHost sampleMem sampleScratch 0 400 4 200 3 0 0 100).mem

/-! ## Memory lemmas -/

theorem storeByte_apply (m : Mem) (p v a : Nat) :
    storeByte m p v a = if a = p then v % 256 else m a := rfl

theorem writeBytes_apply (l : List Nat) (m : Mem) (p a : Nat) :
    writeBytes m p l a
      = if p ≤ a ∧ a < p + l.length then l.getD (a - p) 0 % 256 else m a := by
  induction l generalizing m p with
  | nil =>
    have h : ¬ (p ≤ a ∧ a < p + ([] : List Nat).length) := by
      simp only [List.length_nil]; omega
    rw [writeBytes, if_neg h]
  | cons b bs ih =>
    rw [writeBytes, ih, storeByte_apply]
    by_cases h1 : a = p
    · subst h1
      simp
    · by_cases h2 : p + 1 ≤ a ∧ a < p + 1 + bs.length
      · have h3 : p ≤ a ∧ a < p + (b :: bs).length := by
          simp only [List.length_cons]; omega
        have h4 : a - p = (a - (p + 1)) + 1 := by omega
        rw [if_pos h2, if_pos h3, h4, List.getD_cons_succ]
      · have h3 : ¬ (p ≤ a ∧ a < p + (b :: bs).length) := by
          simp only [List.length_cons]; omega
        rw [if_neg h2, if_neg h3, if_neg h1]

theorem headD_eq_getD (b : List Nat) : b.headD 0 = b.getD 0 0 := by
  cases b <;> rfl

theorem tail_getD (b : List Nat) (k : Nat) : b.tail.getD k 0 = b.getD (k + 1) 0 := by
  cases b <;> simp

theorem memxor_apply (n : Nat) (m : Mem) (dst a : Nat) (b : List Nat)
    (hsep : dst ≤ a ∨ a + n ≤ dst) (x : Nat) :
    memxor m dst a b n x
      = if dst ≤ x ∧ x < dst + n then (m (a + (x - dst)) ^^^ b.getD (x - dst) 0) % 256
        else m x := by
  induction n generalizing m dst a b with
  | zero =>
    have h : ¬ (dst ≤ x ∧ x < dst + 0) := by omega
    rw [memxor, if_neg h]
  | succ n ih =>
    rw [memxor, ih _ _ _ _ (by omega)]
    by_cases h1 : x = dst
    · subst h1
      have h2 : ¬ (x + 1 ≤ x ∧ x < x + 1 + n) := by omega
      have h3 : x ≤ x ∧ x < x + (n + 1) := by omega
      rw [if_neg h2, if_pos h3, storeByte_apply, if_pos rfl, headD_eq_getD]
      simp
    · by_cases h2 : dst + 1 ≤ x ∧ x < dst + 1 + n
      · have h3 : dst ≤ x ∧ x < dst + (n + 1) := by omega
        have h4 : a + 1 + (x - (dst + 1)) ≠ dst := by omega
        have h5 : a + 1 + (x - (dst + 1)) = a + (x - dst) := by omega
        have h6 : x - dst = (x - (dst + 1)) + 1 := by omega
        rw [if_pos h2, if_pos h3, storeByte_apply, if_neg h4, tail_getD, h5, ← h6]
      · have h3 : ¬ (dst ≤ x ∧ x < dst + (n + 1)) := by omega
        rw [if_neg h2, if_neg h3, storeByte_apply, if_neg h1]

theorem seek_length (P : Host) (h : Hasher) (off n : Nat) :
    (blake3_hasher_finalize_seek P h off n).length = n := by
  simp [blake3_hasher_finalize_seek]

theorem seek_getD (P : Host) (h : Hasher) (off n j : Nat) (hj : j < n) :
    (blake3_hasher_finalize_seek P h off n).getD j 0 = hasherOut P h (off + j) % 256 := by
  simp [blake3_hasher_finalize_seek, List.getD_eq_getElem?_getD, List.getElem?_map,
    List.getElem?_range hj]

theorem fillLocal_getD (a out : List Nat) (j : Nat) (hj : j < out.length) :
    (fillLocal a out).getD j 0 = out.getD j 0 := by
  simp [fillLocal, List.getD_eq_getElem?_getD, List.getElem?_append_left hj]

/-! ## The keystream loop -/

theorem sub64_eq (len off : Nat) (h1 : off ≤ len) (h2 : len < SIZE) :
    sub64 len off = len - off := by
  simp only [sub64, SIZE] at *
  omega

theorem add64_eq (a b : Nat) (h : a + b < SIZE) : add64 a b = a + b := by
  simp only [add64, SIZE] at *
  omega

theorem xorWindow_empty (P : Host) (h : Hasher) (m : Mem) (dst src lo : Nat) :
    xorWindow P h m dst src lo lo = m := by
  funext x
  have hx : ¬ (dst + lo ≤ x ∧ x < dst + lo) := by omega
  simp only [xorWindow, if_neg hx]

theorem xorWindow_block (P : Host) (h : Hasher) (m : Mem) (buf : List Nat)
    (dst src len off n e : Nat) (hsep : dst ≤ src ∨ src + len ≤ dst)
    (h1 : off + n ≤ e) (h2 : e ≤ len) :
    xorWindow P h
        (memxor m (dst + off) (src + off)
          (fillLocal buf (blake3_hasher_finalize_seek P h off n)) n)
        dst src (off + n) e
      = xorWindow P h m dst src off e := by
  funext x
  have hm : ∀ y, memxor m (dst + off) (src + off)
      (fillLocal buf (blake3_hasher_finalize_seek P h off n)) n y
        = if dst + off ≤ y ∧ y < dst + off + n then
            (m (src + off + (y - (dst + off)))
              ^^^ (fillLocal buf (blake3_hasher_finalize_seek P h off n)).getD
                    (y - (dst + off)) 0) % 256
          else m y := fun y => memxor_apply n m _ _ _ (by omega) y
  simp only [xorWindow]
  by_cases hx : dst + (off + n) ≤ x ∧ x < dst + e
  · have hx2 : dst + off ≤ x ∧ x < dst + e := by omega
    have hx3 : ¬ (dst + off ≤ src + (x - dst) ∧ src + (x - dst) < dst + off + n) := by omega
    rw [if_pos hx, if_pos hx2, hm, if_neg hx3]
  · rw [if_neg hx, hm]
    by_cases hx4 : dst + off ≤ x ∧ x < dst + off + n
    · have hx2 : dst + off ≤ x ∧ x < dst + e := by omega
      have hj : x - (dst + off) < (blake3_hasher_finalize_seek P h off n).length := by
        rw [seek_length]; omega
      have hj2 : x - (dst + off) < n := by omega
      have e1 : src + off + (x - (dst + off)) = src + (x - dst) := by omega
      have e2 : off + (x - (dst + off)) = x - dst := by omega
      rw [if_pos hx4, if_pos hx2, fillLocal_getD _ _ _ hj, seek_getD _ _ _ _ _ hj2, e1, e2]
    · have hx2 : ¬ (dst + off ≤ x ∧ x < dst + e) := by omega
      rw [if_neg hx4, if_neg hx2]

theorem xorWindow_comp (P : Host) (h : Hasher) (m : Mem) (dst src len a b c : Nat)
    (hsep : dst ≤ src ∨ src + len ≤ dst) (h0 : a ≤ b) (h1 : b ≤ c) (h2 : c ≤ len) :
    xorWindow P h (xorWindow P h m dst src a b) dst src b c = xorWindow P h m dst src a c := by
  funext x
  simp only [xorWindow]
  by_cases hx : dst + b ≤ x ∧ x < dst + c
  · have hx2 : ¬ (dst + a ≤ src + (x - dst) ∧ src + (x - dst) < dst + b) := by omega
    have hx5 : dst + a ≤ x ∧ x < dst + c := by omega
    rw [if_pos hx, if_neg hx2, if_pos hx5]
  · rw [if_neg hx]
    by_cases hx3 : dst + a ≤ x ∧ x < dst + b
    · have hx4 : dst + a ≤ x ∧ x < dst + c := by omega
      rw [if_pos hx3, if_pos hx4]
    · have hx4 : ¬ (dst + a ≤ x ∧ x < dst + c) := by omega
      rw [if_neg hx3, if_neg hx4]

theorem loop_spec (P : Host) (h : Hasher) (dst src len : Nat) (hlen : len < SIZE)
    (hsep : dst ≤ src ∨ src + len ≤ dst) (k : Nat) :
    ∀ (m : Mem) (buf : List Nat) (off : Nat), off ≤ len → len - off ≤ k →
      (finalize_xor_loop P h dst src len m buf off).2.2 = len - (len - off) % 64 ∧
      (finalize_xor_loop P h dst src len m buf off).1
        = xorWindow P h m dst src off (len - (len - off) % 64) := by
  induction k with
  | zero =>
    intro m buf off h1 h2
    have h3 : ¬ (64 ≤ sub64 len off) := by rw [sub64_eq _ _ h1 hlen]; omega
    have h4 : len - (len - off) % 64 = off := by omega
    rw [finalize_xor_loop, if_neg h3, h4, xorWindow_empty]
    exact ⟨rfl, rfl⟩
  | succ k ih =>
    intro m buf off h1 h2
    by_cases h3 : 64 ≤ sub64 len off
    · have h5 : 64 ≤ len - off := by rw [sub64_eq _ _ h1 hlen] at h3; exact h3
      have h6 : add64 off 64 = off + 64 := add64_eq _ _ (by omega)
      have h7 : len - (len - (off + 64)) % 64 = len - (len - off) % 64 := by omega
      rw [finalize_xor_loop, if_pos h3]
      simp only []
      rw [h6]
      obtain ⟨i1, i2⟩ := ih
        (memxor m (dst + off) (src + off)
          (fillLocal buf (blake3_hasher_finalize_seek P h off 64)) 64)
        (fillLocal buf (blake3_hasher_finalize_seek P h off 64)) (off + 64)
        (by omega) (by omega)
      rw [i1, i2, h7]
      refine ⟨rfl, ?_⟩
      exact xorWindow_block P h m buf dst src len off 64 _ hsep (by omega) (by omega)
    · have h5 : len - off < 64 := by rw [sub64_eq _ _ h1 hlen] at h3; omega
      have h4 : len - (len - off) % 64 = off := by omega
      rw [finalize_xor_loop, if_neg h3, h4, xorWindow_empty]
      exact ⟨rfl, rfl⟩

theorem finalize_xor_mem (P : Host) (h : Hasher) (m : Mem) (dst src len : Nat)
    (buf0 : List Nat) (hlen : len < SIZE) (hsep : dst ≤ src ∨ src + len ≤ dst) :
    (blake3_hasher_finalize_xor P h m dst src len buf0).1
      = xorWindow P h m dst src 0 len := by
  unfold blake3_hasher_finalize_xor
  by_cases h0 : len = 0
  · rw [if_pos h0, h0, xorWindow_empty]
  · rw [if_neg h0]
    obtain ⟨i1, i2⟩ := loop_spec P h dst src len hlen hsep len m buf0 0 (by omega) (by omega)
    have e0 : len - (len - 0) % 64 = len - len % 64 := by rw [Nat.sub_zero]
    rw [e0] at i1 i2
    generalize finalize_xor_loop P h dst src len m buf0 0 = r at i1 i2
    obtain ⟨m1, b1, o1⟩ := r
    dsimp only at i1 i2 ⊢
    have hs : sub64 len o1 = len % 64 := by
      rw [i1, sub64_eq _ _ (Nat.sub_le _ _) hlen]; omega
    rw [hs]
    by_cases h1 : len % 64 ≠ 0
    · rw [if_pos h1]
      dsimp only
      have hb := xorWindow_block P h m1 b1 dst src len o1 (len % 64) len hsep
        (by omega) (Nat.le_refl _)
      have e1 : o1 + len % 64 = len := by omega
      rw [e1, xorWindow_empty] at hb
      rw [hb, i2, ← i1]
      exact xorWindow_comp P h m dst src len 0 o1 len hsep (Nat.zero_le _) (by omega)
        (Nat.le_refl _)
    · rw [if_neg h1]
      dsimp only
      have h2 : len - len % 64 = len := by omega
      rw [i2, h2]

/-! ## Reading back -/

theorem readBytes_length (m : Mem) (p n : Nat) : (readBytes m p n).length = n := by
  simp [readBytes]

theorem readBytes_congr (m1 m2 : Mem) (p n : Nat) (h : ∀ i, i < n → m1 (p + i) = m2 (p + i)) :
    readBytes m1 p n = readBytes m2 p n := by
  unfold readBytes
  apply List.map_congr_left
  intro i hi
  exact h i (List.mem_range.mp hi)

theorem readBytes_ext (m1 m2 : Mem) (p q n : Nat)
    (h : ∀ i, i < n → m1 (p + i) = m2 (q + i)) : readBytes m1 p n = readBytes m2 q n := by
  unfold readBytes
  apply List.map_congr_left
  intro i hi
  exact h i (List.mem_range.mp hi)

theorem readBytes_zero (m : Mem) (p : Nat) : readBytes m p 0 = [] := rfl

theorem writeBytes_outside (m : Mem) (p : Nat) (l : List Nat) (a : Nat)
    (h : ¬ (p ≤ a ∧ a < p + l.length)) : writeBytes m p l a = m a := by
  rw [writeBytes_apply, if_neg h]

theorem xorWindow_outside (P : Host) (h : Hasher) (m : Mem) (dst src lo hi x : Nat)
    (hx : ¬ (dst + lo ≤ x ∧ x < dst + hi)) : xorWindow P h m dst src lo hi x = m x := by
  simp only [xorWindow, if_neg hx]

theorem xorWindow_inside (P : Host) (h : Hasher) (m : Mem) (dst src len i : Nat)
    (hi : i < len) :
    xorWindow P h m dst src 0 len (dst + i)
      = (m (src + i) ^^^ hasherOut P h i % 256) % 256 := by
  have hx : dst + 0 ≤ dst + i ∧ dst + i < dst + len := by omega
  have e : dst + i - dst = i := by omega
  simp only [xorWindow, if_pos hx, e]

theorem finalize_eq (P : Host) (key msg : List Nat) (n : Nat) :
    blake3_hasher_finalize P (Hasher.keyed key msg) n
      = (List.range n).map (fun i => P.xof key msg i % 256) := by
  simp [blake3_hasher_finalize, blake3_hasher_finalize_seek, hasherOut]

theorem readBytes_writeBytes_finalize (P : Host) (h : Hasher) (m : Mem) (p n : Nat) :
    readBytes (writeBytes m p (blake3_hasher_finalize P h n)) p n
      = blake3_hasher_finalize P h n := by
  unfold readBytes
  conv_rhs => rw [blake3_hasher_finalize, blake3_hasher_finalize_seek]
  apply List.map_congr_left
  intro i hi
  have hi2 : i < n := List.mem_range.mp hi
  have hl : (blake3_hasher_finalize P h n).length = n := seek_length P h 0 n
  have hx : p ≤ p + i ∧ p + i < p + (blake3_hasher_finalize P h n).length := by
    rw [hl]; omega
  have e : p + i - p = i := by omega
  rw [writeBytes_apply, if_pos hx, e, blake3_hasher_finalize, seek_getD P h 0 n i hi2]
  exact Nat.mod_mod _ _

/-! ## The tag hash -/

theorem and63 (x : Nat) : x &&& 63 = x % 64 :=
  Nat.and_pow_two_sub_one_eq_mod x 6

theorem align64_eq (x : Nat) : align64 x = (64 - x % 64) % 64 := by
  unfold align64
  rw [and63]
  by_cases h : x % 64 ≠ 0
  · rw [if_pos h]; omega
  · rw [if_neg h]; omega

theorem zeros_take (n : Nat) (h : n ≤ 64) : zeros.take n = List.replicate n 0 := by
  unfold zeros
  rw [List.take_replicate, Nat.min_eq_left h]

theorem tag_input_hasher (P : Host) (m : Mem) (ad ad_len text text_len key : Nat)
    (hlen : ad_len + text_len < SIZE) :
    (baile_tag_input P m ad ad_len text text_len key).1
      = Hasher.keyed (deriveKey P.little_endian (readBytes m key 32) ad_len text_len)
          (tagMessage (readBytes m ad ad_len) (readBytes m text text_len)) := by
  have e1 : add64 ad_len text_len = ad_len + text_len := by
    simp only [add64, SIZE] at *
    omega
  simp only [baile_tag_input, blake3_hasher_init_keyed, blake3_hasher_update, deriveKey,
    tagMessage, readBytes_length, e1, align64_eq, List.nil_append]
  rw [zeros_take _ (by omega)]

/-! ## The two operations on arguments that pass validation -/

theorem not_overflow (ad_len text_len : Nat) (h : ad_len + text_len < SIZE) :
    ¬ (add64 ad_len text_len < ad_len % SIZE) := by
  simp only [add64, SIZE] at *
  omega

theorem encrypt_valid (P : Host) (m : Mem) (s : Scratch)
    (ctext tag tag_len ad ad_len text text_len key : Nat)
    (hv : ArgsOk ctext tag tag_len ad ad_len text text_len key) :
    baile_encrypt P m s ctext tag tag_len ad ad_len text text_len key
      = ⟨0,
          (blake3_hasher_finalize_xor P
            (streamHasher (encTagMem P m tag tag_len ad ad_len text text_len key) tag tag_len key)
            (encTagMem P m tag tag_len ad ad_len text text_len key) ctext text text_len s.buf).1,
          ⟨Hasher.zeroed,
            if tag_len ≠ 0 then (baile_tag_input P m ad ad_len text text_len key).2 else s.key2,
            (blake3_hasher_finalize_xor P
              (streamHasher (encTagMem P m tag tag_len ad ad_len text text_len key) tag tag_len
                key)
              (encTagMem P m tag tag_len ad ad_len text text_len key) ctext text text_len
              s.buf).2,
            s.tmp⟩⟩ := by
  obtain ⟨h1, h2, h3, h4, h5⟩ := hv
  unfold baile_encrypt encTagMem streamHasher
  rw [if_neg h1, if_neg (not_not.mpr h2), if_neg (not_not.mpr h3), if_neg (not_not.mpr h4),
    if_neg (not_overflow _ _ h5)]
  by_cases ht : tag_len ≠ 0
  · simp only [if_pos ht]
  · simp only [if_neg ht]

theorem decrypt_valid (P : Host) (m : Mem) (s : Scratch)
    (text tag tag_len ad ad_len ctext text_len key : Nat)
    (hv : ArgsOk text tag tag_len ad ad_len ctext text_len key) :
    baile_decrypt P m s text tag tag_len ad ad_len ctext text_len key
      = ⟨if memcmp
              (if tag_len ≠ 0 then
                fillLocal s.tmp
                  (blake3_hasher_finalize P
                    (baile_tag_input P
                      (blake3_hasher_finalize_xor P (streamHasher m tag tag_len key) m text ctext
                        text_len s.buf).1 ad ad_len text text_len key).1 tag_len)
              else s.tmp)
              (readBytes
                (blake3_hasher_finalize_xor P (streamHasher m tag tag_len key) m text ctext
                  text_len s.buf).1 tag tag_len) tag_len ≠ 0 then -6 else 0,
          (blake3_hasher_finalize_xor P (streamHasher m tag tag_len key) m text ctext text_len
            s.buf).1,
          ⟨Hasher.zeroed,
            if tag_len ≠ 0 then
              (baile_tag_input P
                (blake3_hasher_finalize_xor P (streamHasher m tag tag_len key) m text ctext
                  text_len s.buf).1 ad ad_len text text_len key).2
            else s.key2,
            (blake3_hasher_finalize_xor P (streamHasher m tag tag_len key) m text ctext text_len
              s.buf).2,
            memzero
              (if tag_len ≠ 0 then
                fillLocal s.tmp
                  (blake3_hasher_finalize P
                    (baile_tag_input P
                      (blake3_hasher_finalize_xor P (streamHasher m tag tag_len key) m text ctext
                        text_len s.buf).1 ad ad_len text text_len key).1 tag_len)
              else s.tmp) 64⟩⟩ := by
  obtain ⟨h1, h2, h3, h4, h5⟩ := hv
  have h4b : text_len = 0 ∨ (ctext ≠ 0 ∧ text ≠ 0) := h4.imp id And.symm
  unfold baile_decrypt streamHasher
  rw [if_neg h1, if_neg (not_not.mpr h2), if_neg (not_not.mpr h3), if_neg (not_not.mpr h4b),
    if_neg (not_overflow _ _ h5)]
  by_cases ht : tag_len ≠ 0
  · simp only [if_pos ht]
  · simp only [if_neg ht]

theorem encTagMem_outside (P : Host) (m : Mem) (tag tag_len ad ad_len text text_len key x : Nat)
    (hx : ¬ (tag ≤ x ∧ x < tag + tag_len)) :
    encTagMem P m tag tag_len ad ad_len text text_len key x = m x := by
  unfold encTagMem
  by_cases ht : tag_len ≠ 0
  · rw [if_pos ht]
    apply writeBytes_outside
    rw [blake3_hasher_finalize, seek_length]
    exact hx
  · rw [if_neg ht]

theorem encTagMem_region (P : Host) (m : Mem) (tag tag_len ad ad_len text text_len key p n : Nat)
    (hs : Sep tag tag_len p n) :
    readBytes (encTagMem P m tag tag_len ad ad_len text text_len key) p n = readBytes m p n := by
  apply readBytes_congr
  intro i hi
  apply encTagMem_outside
  unfold Sep at hs
  omega

theorem encTagMem_tag (P : Host) (m : Mem) (tag tag_len ad ad_len text text_len key : Nat)
    (hlen : ad_len + text_len < SIZE) :
    readBytes (encTagMem P m tag tag_len ad ad_len text text_len key) tag tag_len
      = DeriveTag P (readBytes m key 32) (readBytes m ad ad_len) (readBytes m text text_len)
          tag_len := by
  unfold encTagMem
  by_cases ht : tag_len ≠ 0
  · rw [if_pos ht, readBytes_writeBytes_finalize, tag_input_hasher P m _ _ _ _ _ hlen,
      finalize_eq]
    simp only [DeriveTag, readBytes_length]
  · have h0 : tag_len = 0 := not_not.mp ht
    rw [if_neg ht, h0]
    rfl

theorem streamHasher_eq (m : Mem) (tag tag_len key : Nat) :
    streamHasher m tag tag_len key
      = Hasher.keyed (readBytes m key 32) (readBytes m tag tag_len) := by
  simp [streamHasher, blake3_hasher_init_keyed, blake3_hasher_update]

theorem sep_order (dst src len : Nat) (h : dst = src ∨ Sep dst len src len) :
    dst ≤ src ∨ src + len ≤ dst := by
  unfold Sep at h
  omega

/-- Full effect of `baile_encrypt` on caller memory for valid arguments. -/
theorem encrypt_spec (P : Host) (m : Mem) (s : Scratch)
    (ctext tag tag_len ad ad_len text text_len key : Nat)
    (hv : ArgsOk ctext tag tag_len ad ad_len text text_len key)
    (hl : Layout ctext tag tag_len ad ad_len text text_len key) :
    (baile_encrypt P m s ctext tag tag_len ad ad_len text text_len key).ret = 0 ∧
    readBytes (baile_encrypt P m s ctext tag tag_len ad ad_len text text_len key).mem tag tag_len
      = DeriveTag P (readBytes m key 32) (readBytes m ad ad_len) (readBytes m text text_len)
          tag_len ∧
    (∀ i, i < text_len →
      (baile_encrypt P m s ctext tag tag_len ad ad_len text text_len key).mem (ctext + i)
        = (m (text + i) ^^^ keystream P (readBytes m key 32)
            (DeriveTag P (readBytes m key 32) (readBytes m ad ad_len)
              (readBytes m text text_len) tag_len) i) % 256) ∧
    (∀ x, ¬ (tag ≤ x ∧ x < tag + tag_len) → ¬ (ctext ≤ x ∧ x < ctext + text_len) →
      (baile_encrypt P m s ctext tag tag_len ad ad_len text text_len key).mem x = m x) := by
  have hv2 := hv
  obtain ⟨h1, h2, h3, h4, h5⟩ := hv2
  obtain ⟨l1, l2, l3, l4, l5, l6, l7⟩ := hl
  have htl : text_len < SIZE := by omega
  rw [encrypt_valid P m s _ _ _ _ _ _ _ _ hv]
  dsimp only
  rw [finalize_xor_mem _ _ _ _ _ _ _ htl (sep_order _ _ _ l7), streamHasher_eq,
    encTagMem_region _ _ _ _ _ _ _ _ _ _ _ l1, encTagMem_tag _ _ _ _ _ _ _ _ _ h5]
  refine ⟨rfl, ?_, ?_, ?_⟩
  · rw [← encTagMem_tag P m tag tag_len ad ad_len text text_len key h5]
    apply readBytes_congr
    intro i hi
    apply xorWindow_outside
    unfold Sep at l4
    omega
  · intro i hi
    rw [xorWindow_inside _ _ _ _ _ _ _ hi, encTagMem_outside]
    · rfl
    · unfold Sep at l3
      omega
  · intro x hx1 hx2
    rw [xorWindow_outside _ _ _ _ _ _ _ _ (by omega), encTagMem_outside _ _ _ _ _ _ _ _ _ _ hx1]

/-! ## Tag comparison -/

theorem memcmp_eq_zero_iff (n : Nat) (a b : List Nat) :
    memcmp a b n = 0 ↔ ∀ i, i < n → a.getD i 0 = b.getD i 0 := by
  induction n generalizing a b with
  | zero =>
    constructor
    · intro _ i hi
      omega
    · intro _
      rfl
  | succ n ih =>
    rw [memcmp]
    by_cases h : a.headD 0 = b.headD 0
    · rw [if_pos h, ih]
      constructor
      · intro hh i hi
        cases i with
        | zero => rw [← headD_eq_getD, ← headD_eq_getD]; exact h
        | succ j =>
          rw [← tail_getD, ← tail_getD]
          exact hh j (by omega)
      · intro hh i hi
        rw [tail_getD, tail_getD]
        exact hh (i + 1) (by omega)
    · rw [if_neg h]
      constructor
      · intro hh
        have : (a.headD 0 : Int) = (b.headD 0 : Int) := by omega
        exact absurd (Int.ofNat_inj.mp this) h
      · intro hh
        have := hh 0 (by omega)
        rw [← headD_eq_getD, ← headD_eq_getD] at this
        exact absurd this h

theorem getD_ext (n : Nat) (l1 l2 : List Nat) (h1 : l1.length = n) (h2 : l2.length = n) :
    (∀ i, i < n → l1.getD i 0 = l2.getD i 0) ↔ l1 = l2 := by
  constructor
  · intro h
    apply List.ext_getElem (by rw [h1, h2])
    intro i hi1 hi2
    have := h i (by omega)
    rw [List.getD_eq_getElem _ _ hi1, List.getD_eq_getElem _ _ hi2] at this
    exact this
  · intro h i _
    rw [h]

theorem memcmp_fill (tmp0 out b : List Nat) (n : Nat) (h1 : out.length = n)
    (h2 : b.length = n) : memcmp (fillLocal tmp0 out) b n = 0 ↔ out = b := by
  rw [memcmp_eq_zero_iff, ← getD_ext n out b h1 h2]
  constructor
  · intro h i hi
    rw [← fillLocal_getD tmp0 out i (by omega)]
    exact h i hi
  · intro h i hi
    rw [fillLocal_getD tmp0 out i (by omega)]
    exact h i hi

theorem finalize_length (P : Host) (h : Hasher) (n : Nat) :
    (blake3_hasher_finalize P h n).length = n := seek_length P h 0 n

/-- Effect of `baile_decrypt` on caller memory for arguments that pass validation. -/
theorem decrypt_mem (P : Host) (m : Mem) (s : Scratch)
    (text tag tag_len ad ad_len ctext text_len key : Nat)
    (hv : ArgsOk text tag tag_len ad ad_len ctext text_len key)
    (hx : text = ctext ∨ Sep text text_len ctext text_len) :
    (baile_decrypt P m s text tag tag_len ad ad_len ctext text_len key).mem
      = xorWindow P (Hasher.keyed (readBytes m key 32) (readBytes m tag tag_len)) m text ctext 0
          text_len := by
  have htl : text_len < SIZE := by
    have := hv.2.2.2.2
    omega
  rw [decrypt_valid P m s _ _ _ _ _ _ _ _ hv]
  dsimp only
  rw [finalize_xor_mem _ _ _ _ _ _ _ htl (sep_order _ _ _ hx), streamHasher_eq]

/-- Return code of `baile_decrypt` for arguments that pass validation. -/
theorem decrypt_ret (P : Host) (m : Mem) (s : Scratch)
    (text tag tag_len ad ad_len ctext text_len key : Nat)
    (hv : ArgsOk text tag tag_len ad ad_len ctext text_len key)
    (hx : text = ctext ∨ Sep text text_len ctext text_len)
    (ht : Sep tag tag_len text text_len) (hk : Sep text text_len key 32)
    (ha : Sep text text_len ad ad_len) :
    (baile_decrypt P m s text tag tag_len ad ad_len ctext text_len key).ret
      = if tag_len = 0 ∨
          DeriveTag P (readBytes m key 32) (readBytes m ad ad_len)
            (readBytes (baile_decrypt P m s text tag tag_len ad ad_len ctext text_len key).mem
              text text_len) tag_len = readBytes m tag tag_len
        then 0 else -6 := by
  have h5 : ad_len + text_len < SIZE := hv.2.2.2.2
  have hmem := decrypt_mem P m s text tag tag_len ad ad_len ctext text_len key hv hx
  rw [hmem]
  generalize hm1 : xorWindow P (Hasher.keyed (readBytes m key 32) (readBytes m tag tag_len)) m
    text ctext 0 text_len = m1 at hmem
  have hout : ∀ x, ¬ (text ≤ x ∧ x < text + text_len) → m1 x = m x := by
    intro x hxx
    rw [← hm1]
    exact xorWindow_outside _ _ _ _ _ _ _ _ (by omega)
  have hkey : readBytes m1 key 32 = readBytes m key 32 := by
    apply readBytes_congr
    intro i hi
    apply hout
    unfold Sep at hk
    omega
  have had : readBytes m1 ad ad_len = readBytes m ad ad_len := by
    apply readBytes_congr
    intro i hi
    apply hout
    unfold Sep at ha
    omega
  have htag : readBytes m1 tag tag_len = readBytes m tag tag_len := by
    apply readBytes_congr
    intro i hi
    apply hout
    unfold Sep at ht
    omega
  rw [decrypt_valid P m s _ _ _ _ _ _ _ _ hv] at hmem ⊢
  dsimp only at hmem ⊢
  rw [hmem, htag]
  by_cases h0 : tag_len = 0
  · subst h0
    have : memcmp (if (0 : Nat) ≠ 0 then
        fillLocal s.tmp (blake3_hasher_finalize P
          (baile_tag_input P m1 ad ad_len text text_len key).1 0) else s.tmp)
        (readBytes m tag 0) 0 = 0 := rfl
    rw [if_neg (not_not.mpr this), if_pos (Or.inl rfl)]
  · rw [if_pos h0, tag_input_hasher P m1 _ _ _ _ _ h5, hkey, had, finalize_eq]
    have hiff := memcmp_fill s.tmp
      ((List.range tag_len).map (fun i =>
        P.xof (deriveKey P.little_endian (readBytes m key 32) ad_len text_len)
          (tagMessage (readBytes m ad ad_len) (readBytes m1 text text_len)) i % 256))
      (readBytes m tag tag_len) tag_len (by simp) (readBytes_length _ _ _)
    have hD : DeriveTag P (readBytes m key 32) (readBytes m ad ad_len)
        (readBytes m1 text text_len) tag_len
        = (List.range tag_len).map (fun i =>
            P.xof (deriveKey P.little_endian (readBytes m key 32) ad_len text_len)
              (tagMessage (readBytes m ad ad_len) (readBytes m1 text text_len)) i % 256) := by
      simp only [DeriveTag, readBytes_length]
    rw [hD]
    by_cases hc : (List.range tag_len).map (fun i =>
        P.xof (deriveKey P.little_endian (readBytes m key 32) ad_len text_len)
          (tagMessage (readBytes m ad ad_len) (readBytes m1 text text_len)) i % 256)
        = readBytes m tag tag_len
    · rw [if_neg (not_not.mpr (hiff.mpr hc)), if_pos (Or.inr hc)]
    · rw [if_pos (fun h => hc (hiff.mp h)), if_neg (by tauto)]

/-! ## Byte arithmetic -/

theorem xor_byte_lt (t k : Nat) (ht : t < 256) : t ^^^ (k % 256) < 256 := by
  have hk : k % 256 < 2 ^ 8 := Nat.mod_lt _ (by norm_num)
  have ht2 : t < 2 ^ 8 := ht
  exact Nat.xor_lt_two_pow ht2 hk

theorem xor_byte_mod (t k : Nat) (ht : t < 256) : (t ^^^ (k % 256)) % 256 = t ^^^ (k % 256) :=
  Nat.mod_eq_of_lt (xor_byte_lt t k ht)

theorem xor_cancel (t k : Nat) (ht : t < 256) :
    ((t ^^^ (k % 256)) % 256 ^^^ (k % 256)) % 256 = t := by
  rw [xor_byte_mod t k ht, Nat.xor_assoc, Nat.xor_self, Nat.xor_zero, Nat.mod_eq_of_lt ht]

theorem readBytes_getD (m : Mem) (p n i : Nat) (hi : i < n) :
    (readBytes m p n).getD i 0 = m (p + i) := by
  simp [readBytes, List.getD_eq_getElem?_getD, List.getElem?_map, List.getElem?_range hi]

theorem readBytes_xorStream (P : Host) (m m2 : Mem) (key tag : List Nat) (dst src n : Nat)
    (h : ∀ i, i < n → m2 (dst + i) = (m (src + i) ^^^ keystream P key tag i) % 256) :
    readBytes m2 dst n = xorStream P key tag (readBytes m src n) := by
  unfold xorStream
  rw [readBytes_length]
  conv_lhs => rw [readBytes]
  apply List.map_congr_left
  intro i hi
  have hi2 : i < n := List.mem_range.mp hi
  rw [h i hi2, readBytes_getD m src n i hi2]

theorem auth_code_cases (c : Prop) [Decidable c] :
    (if c then (-6 : Int) else 0) = 0 ∨ (if c then (-6 : Int) else 0) = -6 := by
  by_cases h : c
  · rw [if_pos h]; exact Or.inr rfl
  · rw [if_neg h]; exact Or.inl rfl

theorem decrypt_ret_cases (P : Host) (m : Mem) (s : Scratch)
    (text tag tag_len ad ad_len ctext text_len key : Nat)
    (hv : ArgsOk text tag tag_len ad ad_len ctext text_len key) :
    (baile_decrypt P m s text tag tag_len ad ad_len ctext text_len key).ret = 0 ∨
    (baile_decrypt P m s text tag tag_len ad ad_len ctext text_len key).ret = -6 := by
  rw [decrypt_valid P m s _ _ _ _ _ _ _ _ hv]
  exact auth_code_cases _

theorem decrypt_ret_untagged (P : Host) (m : Mem) (s : Scratch)
    (text tag ad ad_len ctext text_len key : Nat)
    (hv : ArgsOk text tag 0 ad ad_len ctext text_len key) :
    (baile_decrypt P m s text tag 0 ad ad_len ctext text_len key).ret = 0 := by
  rw [decrypt_valid P m s _ _ _ _ _ _ _ _ hv]
  rfl

/-! ## Validation -/

theorem overflow_iff (ad_len text_len : Nat) (ha : ad_len < SIZE) (ht : text_len < SIZE) :
    add64 ad_len text_len < ad_len % SIZE ↔ 2 ^ 64 - 1 < ad_len + text_len := by
  simp only [add64, SIZE] at *
  omega

theorem argsOk_iff_table (out tag tag_len ad ad_len src text_len key : Nat) :
    ArgsOk out tag tag_len ad ad_len src text_len key
      ↔ validationTable key tag tag_len ad ad_len src out text_len = 0 := by
  unfold ArgsOk validationTable
  simp only [SIZE]
  split_ifs <;> simp <;> omega

/-- An argument tuple that fails validation: the call returns the code of the
table and leaves memory and locals as they were. -/
theorem encrypt_invalid (P : Host) (m : Mem) (s : Scratch)
    (ctext tag tag_len ad ad_len text text_len key : Nat)
    (ha : ad_len < SIZE) (ht : text_len < SIZE)
    (hn : ¬ ArgsOk ctext tag tag_len ad ad_len text text_len key) :
    baile_encrypt P m s ctext tag tag_len ad ad_len text text_len key
      = ⟨validationTable key tag tag_len ad ad_len text ctext text_len, m, s⟩ := by
  have ho := overflow_iff ad_len text_len ha ht
  unfold ArgsOk at hn
  unfold baile_encrypt validationTable
  by_cases h1 : key = 0
  · rw [if_pos h1, if_pos h1]
  · rw [if_neg h1, if_neg h1]
    by_cases h2 : ¬ (tag_len = 0 ∨ (tag ≠ 0 ∧ tag_len ≤ 64))
    · rw [if_pos h2, if_pos (show 0 < tag_len ∧ (tag = 0 ∨ 64 < tag_len) by omega)]
    · rw [if_neg h2, if_neg (show ¬ (0 < tag_len ∧ (tag = 0 ∨ 64 < tag_len)) by omega)]
      by_cases h3 : ¬ (ad_len = 0 ∨ ad ≠ 0)
      · rw [if_pos h3, if_pos (show 0 < ad_len ∧ ad = 0 by omega)]
      · rw [if_neg h3, if_neg (show ¬ (0 < ad_len ∧ ad = 0) by omega)]
        by_cases h4 : ¬ (text_len = 0 ∨ (ctext ≠ 0 ∧ text ≠ 0))
        · rw [if_pos h4, if_pos (show 0 < text_len ∧ (text = 0 ∨ ctext = 0) by omega)]
        · rw [if_neg h4, if_neg (show ¬ (0 < text_len ∧ (text = 0 ∨ ctext = 0)) by omega)]
          have h5 : add64 ad_len text_len < ad_len % SIZE := by
            rw [ho]
            simp only [SIZE] at hn
            omega
          rw [if_pos h5, if_pos (ho.mp h5)]

theorem decrypt_invalid (P : Host) (m : Mem) (s : Scratch)
    (text tag tag_len ad ad_len ctext text_len key : Nat)
    (ha : ad_len < SIZE) (ht : text_len < SIZE)
    (hn : ¬ ArgsOk text tag tag_len ad ad_len ctext text_len key) :
    baile_decrypt P m s text tag tag_len ad ad_len ctext text_len key
      = ⟨validationTable key tag tag_len ad ad_len ctext text text_len, m, s⟩ := by
  have ho := overflow_iff ad_len text_len ha ht
  unfold ArgsOk at hn
  unfold baile_decrypt validationTable
  by_cases h1 : key = 0
  · rw [if_pos h1, if_pos h1]
  · rw [if_neg h1, if_neg h1]
    by_cases h2 : ¬ (tag_len = 0 ∨ (tag ≠ 0 ∧ tag_len ≤ 64))
    · rw [if_pos h2, if_pos (show 0 < tag_len ∧ (tag = 0 ∨ 64 < tag_len) by omega)]
    · rw [if_neg h2, if_neg (show ¬ (0 < tag_len ∧ (tag = 0 ∨ 64 < tag_len)) by omega)]
      by_cases h3 : ¬ (ad_len = 0 ∨ ad ≠ 0)
      · rw [if_pos h3, if_pos (show 0 < ad_len ∧ ad = 0 by omega)]
      · rw [if_neg h3, if_neg (show ¬ (0 < ad_len ∧ ad = 0) by omega)]
        by_cases h4 : ¬ (text_len = 0 ∨ (ctext ≠ 0 ∧ text ≠ 0))
        · rw [if_pos h4, if_pos (show 0 < text_len ∧ (ctext = 0 ∨ text = 0) by omega)]
        · rw [if_neg h4, if_neg (show ¬ (0 < text_len ∧ (ctext = 0 ∨ text = 0)) by omega)]
          have h5 : add64 ad_len text_len < ad_len % SIZE := by
            rw [ho]
            simp only [SIZE] at hn
            omega
          rw [if_pos h5, if_pos (ho.mp h5)]

theorem encrypt_ret_valid (P : Host) (m : Mem) (s : Scratch)
    (ctext tag tag_len ad ad_len text text_len key : Nat)
    (hv : ArgsOk ctext tag tag_len ad ad_len text text_len key) :
    (baile_encrypt P m s ctext tag tag_len ad ad_len text text_len key).ret = 0 := by
  rw [encrypt_valid P m s _ _ _ _ _ _ _ _ hv]

theorem table_overflow (out tag tag_len ad ad_len src text_len key : Nat)
    (h1 : key ≠ 0) (h2 : tag_len = 0 ∨ (tag ≠ 0 ∧ tag_len ≤ 64)) (h3 : ad_len = 0 ∨ ad ≠ 0)
    (h4 : text_len = 0 ∨ (out ≠ 0 ∧ src ≠ 0)) (h5 : 2 ^ 64 - 1 < ad_len + text_len) :
    validationTable key tag tag_len ad ad_len src out text_len = -5 := by
  unfold validationTable
  rw [if_neg h1, if_neg (show ¬ (0 < tag_len ∧ (tag = 0 ∨ 64 < tag_len)) by omega),
    if_neg (show ¬ (0 < ad_len ∧ ad = 0) by omega),
    if_neg (show ¬ (0 < text_len ∧ (src = 0 ∨ out = 0)) by omega), if_pos h5]

theorem table_range (out tag tag_len ad ad_len src text_len key : Nat) :
    validationTable key tag tag_len ad ad_len src out text_len ≠ -6 := by
  unfold validationTable
  split_ifs <;> decide

/-! ## The outputs as functions of the input contents -/

theorem encrypt_outputs (P : Host) (m : Mem) (s : Scratch)
    (ctext tag tag_len ad ad_len text text_len key : Nat)
    (hv : ArgsOk ctext tag tag_len ad ad_len text text_len key)
    (hl : Layout ctext tag tag_len ad ad_len text text_len key) :
    readBytes (baile_encrypt P m s ctext tag tag_len ad ad_len text text_len key).mem tag tag_len
      = DeriveTag P (readBytes m key 32) (readBytes m ad ad_len) (readBytes m text text_len)
          tag_len ∧
    readBytes (baile_encrypt P m s ctext tag tag_len ad ad_len text text_len key).mem ctext
        text_len
      = xorStream P (readBytes m key 32)
          (DeriveTag P (readBytes m key 32) (readBytes m ad ad_len) (readBytes m text text_len)
            tag_len) (readBytes m text text_len) := by
  obtain ⟨_, e2, e3, _⟩ := encrypt_spec P m s ctext tag tag_len ad ad_len text text_len key hv hl
  exact ⟨e2, readBytes_xorStream P m _ _ _ ctext text text_len e3⟩

theorem decrypt_outputs (P : Host) (m : Mem) (s : Scratch)
    (text tag tag_len ad ad_len ctext text_len key : Nat)
    (hv : ArgsOk text tag tag_len ad ad_len ctext text_len key)
    (hl : Layout text tag tag_len ad ad_len ctext text_len key) :
    readBytes (baile_decrypt P m s text tag tag_len ad ad_len ctext text_len key).mem text
        text_len
      = xorStream P (readBytes m key 32) (readBytes m tag tag_len) (readBytes m ctext text_len) ∧
    (baile_decrypt P m s text tag tag_len ad ad_len ctext text_len key).ret
      = if tag_len = 0 ∨
          DeriveTag P (readBytes m key 32) (readBytes m ad ad_len)
            (xorStream P (readBytes m key 32) (readBytes m tag tag_len)
              (readBytes m ctext text_len)) tag_len = readBytes m tag tag_len
        then 0 else -6 := by
  obtain ⟨_, _, _, l4, l5, l6, l7⟩ := hl
  have h1 : readBytes (baile_decrypt P m s text tag tag_len ad ad_len ctext text_len key).mem
      text text_len
      = xorStream P (readBytes m key 32) (readBytes m tag tag_len)
          (readBytes m ctext text_len) := by
    apply readBytes_xorStream
    intro i hi
    rw [decrypt_mem P m s text tag tag_len ad ad_len ctext text_len key hv l7,
      xorWindow_inside _ _ _ _ _ _ _ hi]
    rfl
  refine ⟨h1, ?_⟩
  rw [decrypt_ret P m s text tag tag_len ad ad_len ctext text_len key hv l7 l4 l5 l6, h1]

/-! ## Bytes of a 64-bit word -/

theorem getD_set (d : List Nat) (i j a : Nat) :
    (d.set i a).getD j 0 = if j = i ∧ i < d.length then a else d.getD j 0 := by
  rw [List.getD_eq_getElem?_getD, List.getD_eq_getElem?_getD, List.getElem?_set]
  by_cases h : i = j
  · subst h
    by_cases h2 : i < d.length
    · simp [h2]
    · simp [h2, List.getElem?_eq_none (Nat.le_of_not_lt h2)]
  · have h3 : ¬ (j = i ∧ i < d.length) := fun hh => h hh.1.symm
    rw [if_neg h, if_neg h3]

theorem xor_shift_byte (a b k : Nat) :
    ((a ^^^ b) >>> k) % 256 = ((a >>> k) % 256) ^^^ ((b >>> k) % 256) := by
  have e : (256 : Nat) = 2 ^ 8 := by norm_num
  rw [e]
  apply Nat.eq_of_testBit_eq
  intro i
  simp only [Nat.testBit_mod_two_pow, Nat.testBit_xor, Nat.testBit_shiftRight]
  by_cases h : i < 8 <;> simp [h]

theorem xor_mod_byte (a b : Nat) (ha : a < 256) : (a ^^^ b) % 256 = a ^^^ (b % 256) := by
  have h := xor_shift_byte a b 0
  simp only [Nat.shiftRight_zero] at h
  rw [h, Nat.mod_eq_of_lt ha]

theorem and255 (y : Nat) : y &&& 255 = y % 256 :=
  Nat.and_pow_two_sub_one_eq_mod y 8

theorem mod_size_byte (w i : Nat) (hi : i < 8) :
    ((w % SIZE) >>> (8 * i)) % 256 = (w >>> (8 * i)) % 256 := by
  simp only [SIZE, Nat.shiftRight_eq_div_pow]
  interval_cases i <;> norm_num <;> omega

theorem word_bytes (d0 d1 d2 d3 d4 d5 d6 d7 : Nat) (h0 : d0 < 256) (h1 : d1 < 256)
    (h2 : d2 < 256) (h3 : d3 < 256) (h4 : d4 < 256) (h5 : d5 < 256) (h6 : d6 < 256)
    (h7 : d7 < 256) (w : Nat)
    (hw : w = d0 + d1 * 256 ^ 1 + d2 * 256 ^ 2 + d3 * 256 ^ 3 + d4 * 256 ^ 4 + d5 * 256 ^ 5
      + d6 * 256 ^ 6 + d7 * 256 ^ 7) :
    (w >>> (8 * 0)) % 256 = d0 ∧ (w >>> (8 * 1)) % 256 = d1 ∧ (w >>> (8 * 2)) % 256 = d2 ∧
    (w >>> (8 * 3)) % 256 = d3 ∧ (w >>> (8 * 4)) % 256 = d4 ∧ (w >>> (8 * 5)) % 256 = d5 ∧
    (w >>> (8 * 6)) % 256 = d6 ∧ (w >>> (8 * 7)) % 256 = d7 := by
  simp only [Nat.shiftRight_eq_div_pow]
  norm_num at hw ⊢
  omega

theorem load_byte (d : List Nat) (o : Nat) (hb : ∀ i, i < 8 → d.getD (o + i) 0 < 256)
    (i : Nat) (hi : i < 8) : (load64le d o >>> (8 * i)) % 256 = d.getD (o + i) 0 := by
  obtain ⟨e0, e1, e2, e3, e4, e5, e6, e7⟩ := word_bytes (d.getD (o + 0) 0) (d.getD (o + 1) 0)
    (d.getD (o + 2) 0) (d.getD (o + 3) 0) (d.getD (o + 4) 0) (d.getD (o + 5) 0)
    (d.getD (o + 6) 0) (d.getD (o + 7) 0) (hb 0 (by omega)) (hb 1 (by omega))
    (hb 2 (by omega)) (hb 3 (by omega)) (hb 4 (by omega)) (hb 5 (by omega)) (hb 6 (by omega))
    (hb 7 (by omega)) (load64le d o) rfl
  interval_cases i
  · exact e0
  · exact e1
  · exact e2
  · exact e3
  · exact e4
  · exact e5
  · exact e6
  · exact e7

theorem store64le_getD (d : List Nat) (o w j : Nat) (hlen : o + 8 ≤ d.length) :
    (store64le d o w).getD j 0
      = if o ≤ j ∧ j < o + 8 then (w >>> (8 * (j - o))) % 256 else d.getD j 0 := by
  unfold store64le
  simp only [getD_set, List.length_set]
  by_cases hj : o ≤ j ∧ j < o + 8
  · rw [if_pos hj]
    obtain ⟨k, hk, rfl⟩ : ∃ k, k < 8 ∧ j = o + k := ⟨j - o, by omega, by omega⟩
    have e : o + k - o = k := by omega
    rw [e]
    interval_cases k <;> simp <;> omega
  · rw [if_neg hj]
    have n0 : ¬ (j = o ∧ o < d.length) := by omega
    have n1 : ¬ (j = o + 1 ∧ o + 1 < d.length) := by omega
    have n2 : ¬ (j = o + 2 ∧ o + 2 < d.length) := by omega
    have n3 : ¬ (j = o + 3 ∧ o + 3 < d.length) := by omega
    have n4 : ¬ (j = o + 4 ∧ o + 4 < d.length) := by omega
    have n5 : ¬ (j = o + 5 ∧ o + 5 < d.length) := by omega
    have n6 : ¬ (j = o + 6 ∧ o + 6 < d.length) := by omega
    have n7 : ¬ (j = o + 7 ∧ o + 7 < d.length) := by omega
    rw [if_neg n7, if_neg n6, if_neg n5, if_neg n4, if_neg n3, if_neg n2, if_neg n1, if_neg n0]

theorem xor64le_bytes_getD (d : List Nat) (o x j : Nat) (hlen : o + 8 ≤ d.length) :
    (xor64le_bytes d o x).getD j 0
      = if o ≤ j ∧ j < o + 8 then (d.getD j 0 ^^^ ((x % SIZE) >>> (8 * (j - o)))) % 256
        else d.getD j 0 := by
  unfold xor64le_bytes
  simp only [xorByteAt, getD_set, List.length_set]
  by_cases hj : o ≤ j ∧ j < o + 8
  · rw [if_pos hj]
    obtain ⟨k, hk, rfl⟩ : ∃ k, k < 8 ∧ j = o + k := ⟨j - o, by omega, by omega⟩
    have e : o + k - o = k := by omega
    rw [e]
    interval_cases k <;> simp <;> omega
  · rw [if_neg hj]
    have n0 : ¬ (j = o ∧ o < d.length) := by omega
    have n1 : ¬ (j = o + 1 ∧ o + 1 < d.length) := by omega
    have n2 : ¬ (j = o + 2 ∧ o + 2 < d.length) := by omega
    have n3 : ¬ (j = o + 3 ∧ o + 3 < d.length) := by omega
    have n4 : ¬ (j = o + 4 ∧ o + 4 < d.length) := by omega
    have n5 : ¬ (j = o + 5 ∧ o + 5 < d.length) := by omega
    have n6 : ¬ (j = o + 6 ∧ o + 6 < d.length) := by omega
    have n7 : ¬ (j = o + 7 ∧ o + 7 < d.length) := by omega
    rw [if_neg n7, if_neg n6, if_neg n5, if_neg n4, if_neg n3, if_neg n2, if_neg n1, if_neg n0]

theorem le64Byte_eq (x i : Nat) : le64Byte x i = (x >>> (8 * i)) % 256 := and255 _

theorem xor64le_word_getD (d : List Nat) (o x j : Nat) (hlen : o + 8 ≤ d.length)
    (hb : ∀ i, i < 8 → d.getD (o + i) 0 < 256) :
    (xor64le_word d o x).getD j 0
      = if o ≤ j ∧ j < o + 8 then d.getD j 0 ^^^ le64Byte (x % SIZE) (j - o)
        else d.getD j 0 := by
  unfold xor64le_word
  rw [store64le_getD _ _ _ _ hlen]
  by_cases hj : o ≤ j ∧ j < o + 8
  · have e : o + (j - o) = j := by omega
    rw [if_pos hj, if_pos hj, mod_size_byte _ _ (by omega), xor_shift_byte,
      load_byte d o hb (j - o) (by omega), e, le64Byte_eq]
  · rw [if_neg hj, if_neg hj]

theorem xor64le_bytes_getD_ref (d : List Nat) (o x j : Nat) (hlen : o + 8 ≤ d.length)
    (hb : ∀ i, i < 8 → d.getD (o + i) 0 < 256) :
    (xor64le_bytes d o x).getD j 0
      = if o ≤ j ∧ j < o + 8 then d.getD j 0 ^^^ le64Byte (x % SIZE) (j - o)
        else d.getD j 0 := by
  rw [xor64le_bytes_getD _ _ _ _ hlen]
  by_cases hj : o ≤ j ∧ j < o + 8
  · have e : o + (j - o) = j := by omega
    have hbj : d.getD j 0 < 256 := by
      have := hb (j - o) (by omega)
      rwa [e] at this
    rw [if_pos hj, if_pos hj, xor_mod_byte _ _ hbj, le64Byte_eq]
  · rw [if_neg hj, if_neg hj]

theorem xor64le_getD (le : Bool) (d : List Nat) (o x j : Nat) (hlen : o + 8 ≤ d.length)
    (hb : ∀ i, i < 8 → d.getD (o + i) 0 < 256) :
    (xor64le le d o x).getD j 0
      = if o ≤ j ∧ j < o + 8 then d.getD j 0 ^^^ le64Byte (x % SIZE) (j - o)
        else d.getD j 0 := by
  unfold xor64le
  cases le
  · simpa using xor64le_bytes_getD_ref d o x j hlen hb
  · simpa using xor64le_word_getD d o x j hlen hb

theorem xor64le_length (le : Bool) (d : List Nat) (o x : Nat) :
    (xor64le le d o x).length = d.length := by
  unfold xor64le
  cases le <;> simp [xor64le_bytes, xor64le_word, store64le, xorByteAt]


/-! ## The derived tag key -/

theorem xorByteAt_getD (d : List Nat) (i v j : Nat) :
    (xorByteAt d i v).getD j 0
      = if j = i ∧ i < d.length then (d.getD i 0 ^^^ v) % 256 else d.getD j 0 := by
  unfold xorByteAt
  rw [getD_set]

theorem deriveKey_length (le : Bool) (key : List Nat) (ad_len text_len : Nat) :
    (deriveKey le key ad_len text_len).length = key.length := by
  unfold deriveKey
  rw [xor64le_length, xor64le_length]
  simp [xorByteAt]

theorem deriveKey_getD (le : Bool) (key : List Nat) (ad_len text_len j : Nat)
    (hlen : key.length = 32) (hb : ∀ i, i < 32 → key.getD i 0 < 256) :
    (deriveKey le key ad_len text_len).getD j 0
      = if j = 0 then key.getD 0 0 ^^^ 1
        else if 8 ≤ j ∧ j < 16 then key.getD j 0 ^^^ le64Byte (ad_len % SIZE) (j - 8)
        else if 16 ≤ j ∧ j < 24 then key.getD j 0 ^^^ le64Byte (text_len % SIZE) (j - 16)
        else key.getD j 0 := by
  have s0 : ∀ j, (xorByteAt key 0 1).getD j 0
      = if j = 0 then key.getD 0 0 ^^^ 1 else key.getD j 0 := by
    intro j
    rw [xorByteAt_getD]
    by_cases h : j = 0
    · have h2 : j = 0 ∧ 0 < key.length := ⟨h, by omega⟩
      rw [if_pos h2, if_pos h, xor_mod_byte _ _ (hb 0 (by omega))]
    · have h2 : ¬ (j = 0 ∧ 0 < key.length) := fun hh => h hh.1
      rw [if_neg h2, if_neg h]
  have l0 : (xorByteAt key 0 1).length = 32 := by simp [xorByteAt, hlen]
  have b0 : ∀ i, i < 8 → (xorByteAt key 0 1).getD (8 + i) 0 < 256 := by
    intro i hi
    rw [s0, if_neg (by omega)]
    exact hb _ (by omega)
  have s1 : ∀ j, (xor64le le (xorByteAt key 0 1) 8 ad_len).getD j 0
      = if 8 ≤ j ∧ j < 8 + 8 then (xorByteAt key 0 1).getD j 0 ^^^ le64Byte (ad_len % SIZE) (j - 8)
        else (xorByteAt key 0 1).getD j 0 :=
    fun j => xor64le_getD le _ 8 ad_len j (by omega) b0
  have l1 : (xor64le le (xorByteAt key 0 1) 8 ad_len).length = 32 := by
    rw [xor64le_length, l0]
  have b1 : ∀ i, i < 8 → (xor64le le (xorByteAt key 0 1) 8 ad_len).getD (16 + i) 0 < 256 := by
    intro i hi
    rw [s1, if_neg (by omega), s0, if_neg (by omega)]
    exact hb _ (by omega)
  unfold deriveKey
  rw [xor64le_getD le _ 16 text_len j (by omega) b1, s1, s0]
  by_cases h0 : j = 0
  · subst h0
    simp
  · by_cases h1 : 8 ≤ j ∧ j < 16
    · have h1b : 8 ≤ j ∧ j < 8 + 8 := by omega
      rw [if_neg (by omega : ¬ (16 ≤ j ∧ j < 16 + 8)), if_pos h1b, if_neg h0, if_neg h0,
        if_pos h1]
    · have h1b : ¬ (8 ≤ j ∧ j < 8 + 8) := by omega
      by_cases h2 : 16 ≤ j ∧ j < 24
      · have h2b : 16 ≤ j ∧ j < 16 + 8 := by omega
        rw [if_pos h2b, if_neg h1b, if_neg h0, if_neg h0, if_neg h1, if_pos h2]
      · have h2b : ¬ (16 ≤ j ∧ j < 16 + 8) := by omega
        rw [if_neg h2b, if_neg h1b, if_neg h0, if_neg h0, if_neg h1, if_neg h2]

theorem deriveKey_getD_ad (le : Bool) (key : List Nat) (ad_len text_len i : Nat)
    (hlen : key.length = 32) (hb : ∀ i, i < 32 → key.getD i 0 < 256) (hi : i < 8) :
    (deriveKey le key ad_len text_len).getD (8 + i) 0
      = key.getD (8 + i) 0 ^^^ le64Byte (ad_len % SIZE) i := by
  have e : 8 + i - 8 = i := by omega
  rw [deriveKey_getD _ _ _ _ _ hlen hb, if_neg (by omega), if_pos (by omega), e]

theorem deriveKey_getD_text (le : Bool) (key : List Nat) (ad_len text_len i : Nat)
    (hlen : key.length = 32) (hb : ∀ i, i < 32 → key.getD i 0 < 256) (hi : i < 8) :
    (deriveKey le key ad_len text_len).getD (16 + i) 0
      = key.getD (16 + i) 0 ^^^ le64Byte (text_len % SIZE) i := by
  have e : 16 + i - 16 = i := by omega
  rw [deriveKey_getD _ _ _ _ _ hlen hb, if_neg (by omega), if_neg (by omega),
    if_pos (by omega), e]

theorem tag_input_key (P : Host) (m : Mem) (ad ad_len text text_len key : Nat) :
    hasherKey (baile_tag_input P m ad ad_len text text_len key).1
      = deriveKey P.little_endian (readBytes m key 32) ad_len text_len := by
  simp only [baile_tag_input, blake3_hasher_init_keyed, blake3_hasher_update, deriveKey,
    hasherKey]

theorem readBytes_lt (m : Mem) (p n : Nat) (hb : ∀ i, i < n → m (p + i) < 256) :
    ∀ i, i < n → (readBytes m p n).getD i 0 < 256 := by
  intro i hi
  rw [readBytes_getD m p n i hi]
  exact hb i hi

theorem le64_inj (a b : Nat) (ha : a < SIZE) (hb : b < SIZE)
    (h : ∀ i, i < 8 → le64Byte a i = le64Byte b i) : a = b := by
  have h0 := h 0 (by omega)
  have h1 := h 1 (by omega)
  have h2 := h 2 (by omega)
  have h3 := h 3 (by omega)
  have h4 := h 4 (by omega)
  have h5 := h 5 (by omega)
  have h6 := h 6 (by omega)
  have h7 := h 7 (by omega)
  simp only [le64Byte_eq, Nat.shiftRight_eq_div_pow, SIZE] at *
  norm_num at h0 h1 h2 h3 h4 h5 h6 h7
  omega


/-! ## Keystream reuse and tag prefixes -/

theorem deriveTag_zero (P : Host) (key ad text : List Nat) : DeriveTag P key ad text 0 = [] :=
  rfl

theorem deriveTag_take (P : Host) (key ad text : List Nat) (n k : Nat) (h : n ≤ k) :
    (DeriveTag P key ad text k).take n = DeriveTag P key ad text n := by
  unfold DeriveTag
  rw [← List.map_take, List.take_range, Nat.min_eq_left h]

theorem xor_pair_cancel (a b k : Nat) : (a ^^^ k) ^^^ (b ^^^ k) = a ^^^ b := by
  rw [Nat.xor_assoc, Nat.xor_comm b k, Nat.xor_cancel_left]


/-! ## The requests of the keystream loop -/

theorem loop_trace (P : Host) (h : Hasher) (dst src len off : Nat) :
    ∀ (m : Mem) (buf : List Nat),
      finalize_xor_loop P h dst src len m buf off
        = ((((finalize_xor_offs len off).1.map (fun o => (o, 64))).foldl
              (runRequest P h dst src) (m, buf)).1,
            (((finalize_xor_offs len off).1.map (fun o => (o, 64))).foldl
              (runRequest P h dst src) (m, buf)).2,
            (finalize_xor_offs len off).2) := by
  induction off using finalize_xor_offs.induct len with
  | case1 off hc ih =>
    intro m buf
    rw [finalize_xor_loop, if_pos hc, finalize_xor_offs, if_pos hc]
    simp only [List.map_cons, List.foldl_cons]
    rw [ih]
    rfl
  | case2 off hc =>
    intro m buf
    rw [finalize_xor_loop, if_neg hc, finalize_xor_offs, if_neg hc]
    rfl

theorem finalize_xor_trace (P : Host) (h : Hasher) (m : Mem) (dst src len : Nat)
    (buf0 : List Nat) (h0 : len ≠ 0) :
    blake3_hasher_finalize_xor P h m dst src len buf0
      = (((finalize_xor_requests len).foldl (runRequest P h dst src) (m, buf0)).1,
          memzero ((finalize_xor_requests len).foldl (runRequest P h dst src) (m, buf0)).2 64) := by
  have hL := loop_trace P h dst src len 0 m buf0
  unfold blake3_hasher_finalize_xor finalize_xor_requests
  rw [if_neg h0, if_neg h0]
  generalize finalize_xor_offs len 0 = r at hL ⊢
  generalize finalize_xor_loop P h dst src len m buf0 0 = L at hL ⊢
  obtain ⟨m1, b1, o1⟩ := L
  obtain ⟨r1, r2⟩ := r
  have e1 : m1 = (List.foldl (runRequest P h dst src) (m, buf0)
      (List.map (fun o => (o, 64)) r1)).1 := congrArg Prod.fst hL
  have e2 : b1 = (List.foldl (runRequest P h dst src) (m, buf0)
      (List.map (fun o => (o, 64)) r1)).2 := congrArg (fun t => t.2.1) hL
  have e3 : o1 = r2 := congrArg (fun t => t.2.2) hL
  clear hL
  dsimp only
  subst e1 e2 e3
  by_cases hz : sub64 len o1 ≠ 0
  · rw [if_pos hz, if_pos hz, List.foldl_append]
    simp only [List.foldl_cons, List.foldl_nil, runRequest]
  · rw [if_neg hz, if_neg hz, List.append_nil]

theorem offs_closed (len : Nat) (hlen : len < SIZE) (off : Nat) :
    off ≤ len →
      finalize_xor_offs len off
        = ((List.range ((len - off) / 64)).map (fun k => off + 64 * k),
            len - (len - off) % 64) := by
  induction off using finalize_xor_offs.induct len with
  | case1 off hc ih =>
    intro hle
    have h5 : 64 ≤ len - off := by rw [sub64_eq _ _ hle hlen] at hc; exact hc
    have h6 : add64 off 64 = off + 64 := add64_eq _ _ (by omega)
    rw [h6] at ih
    have e1 : (len - off) / 64 = (len - (off + 64)) / 64 + 1 := by omega
    have e2 : len - (len - (off + 64)) % 64 = len - (len - off) % 64 := by omega
    rw [finalize_xor_offs, if_pos hc, h6, ih (by omega), e1, List.range_succ_eq_map, e2]
    simp only [List.map_cons, List.map_map, Nat.mul_zero, Nat.add_zero]
    congr 2
    apply List.map_congr_left
    intro k _
    simp only [Function.comp_apply]
    omega
  | case2 off hc =>
    intro hle
    have h5 : len - off < 64 := by rw [sub64_eq _ _ hle hlen] at hc; omega
    have e1 : (len - off) / 64 = 0 := by omega
    have e2 : len - (len - off) % 64 = off := by omega
    rw [finalize_xor_offs, if_neg hc, e1, e2]
    rfl

theorem offs_zero (len : Nat) (hlen : len < SIZE) :
    finalize_xor_offs len 0 = ((List.range (len / 64)).map (fun k => 64 * k), 64 * (len / 64)) := by
  rw [offs_closed len hlen 0 (Nat.zero_le _)]
  have e1 : len - 0 = len := Nat.sub_zero len
  have e2 : len - len % 64 = 64 * (len / 64) := by omega
  rw [e1, e2]
  congr 1
  apply List.map_congr_left
  intro k _
  omega

theorem mem_offs (len : Nat) (off : Nat)
    (h : off ∈ (List.range (len / 64)).map (fun k => 64 * k)) :
    off % 64 = 0 ∧ off + 64 ≤ len := by
  obtain ⟨k, hk, rfl⟩ := List.mem_map.mp h
  have := List.mem_range.mp hk
  omega

/-! ## Erasure of the locals -/

theorem fillLocal_length (a out : List Nat) :
    (fillLocal a out).length = out.length + (a.length - out.length) := by
  simp [fillLocal]

theorem memzero_full (d : List Nat) (n : Nat) (h : d.length ≤ n) :
    memzero d n = List.replicate n 0 := by
  unfold memzero fillLocal
  rw [List.length_replicate, List.drop_eq_nil_of_le h, List.append_nil]

theorem requests_bound (len : Nat) (hlen : len < SIZE) :
    ∀ q, q ∈ finalize_xor_requests len → 0 < q.2 ∧ q.2 ≤ 64 ∧ q.1 + q.2 ≤ len := by
  have ho := offs_zero len hlen
  have hexit : sub64 len (64 * (len / 64)) = len % 64 := by
    rw [sub64_eq _ _ (by omega) hlen]
    omega
  intro q hq
  unfold finalize_xor_requests at hq
  by_cases h0 : len = 0
  · rw [if_pos h0] at hq
    exact absurd hq (List.not_mem_nil q)
  · rw [if_neg h0, ho] at hq
    simp only at hq
    rw [hexit] at hq
    rcases List.mem_append.mp hq with h1 | h2
    · obtain ⟨off, hoff, rfl⟩ := List.mem_map.mp h1
      obtain ⟨_, b⟩ := mem_offs len off hoff
      simp only
      omega
    · by_cases hz : len % 64 ≠ 0
      · rw [if_pos hz] at h2
        have := List.mem_singleton.mp h2
        subst this
        simp only
        omega
      · rw [if_neg hz] at h2
        exact absurd h2 (List.not_mem_nil q)

theorem requests_buf_length (P : Host) (h : Hasher) (dst src : Nat) (reqs : List (Nat × Nat)) :
    ∀ st : Mem × List Nat, st.2.length = 64 → (∀ q, q ∈ reqs → q.2 ≤ 64) →
      (reqs.foldl (runRequest P h dst src) st).2.length = 64 := by
  induction reqs with
  | nil =>
    intro st hst _
    exact hst
  | cons q qs ih =>
    intro st hst hq
    rw [List.foldl_cons]
    apply ih
    · have hq1 : q.2 ≤ 64 := hq q (List.mem_cons_self q qs)
      simp only [runRequest]
      rw [fillLocal_length, seek_length, hst]
      omega
    · intro q2 hq2
      exact hq q2 (List.mem_cons_of_mem q hq2)

theorem finalize_xor_buf (P : Host) (h : Hasher) (m : Mem) (dst src len : Nat)
    (buf0 : List Nat) (hlen : len < SIZE) (h0 : len ≠ 0) (hb : buf0.length = 64) :
    (blake3_hasher_finalize_xor P h m dst src len buf0).2 = List.replicate 64 0 := by
  rw [finalize_xor_trace P h m dst src len buf0 h0]
  apply memzero_full
  rw [requests_buf_length P h dst src _ (m, buf0) hb
    (fun q hq => (requests_bound len hlen q hq).2.1)]

theorem tag_input_key2 (P : Host) (m : Mem) (ad ad_len text text_len key : Nat) :
    (baile_tag_input P m ad ad_len text text_len key).2 = List.replicate 32 0 := by
  simp only [baile_tag_input]
  apply memzero_full
  rw [xor64le_length, xor64le_length]
  simp [xorByteAt, readBytes_length]

/-! ## Tag comparison work -/

theorem decrypt_ret_tags (P : Host) (m : Mem) (s : Scratch)
    (text tag tag_len ad ad_len ctext text_len key : Nat)
    (hv : ArgsOk text tag tag_len ad ad_len ctext text_len key) :
    (baile_decrypt P m s text tag tag_len ad ad_len ctext text_len key).ret
      = if memcmp (decrypt_tags P m s text tag tag_len ad ad_len ctext text_len key).1
            (decrypt_tags P m s text tag tag_len ad ad_len ctext text_len key).2 tag_len ≠ 0
        then -6 else 0 := by
  rw [decrypt_valid P m s _ _ _ _ _ _ _ _ hv]
  unfold decrypt_tags streamHasher
  by_cases ht : tag_len ≠ 0
  · simp only [if_pos ht]
  · simp only [if_neg ht]

theorem memcmp_work_le (n : Nat) (a b : List Nat) : memcmp_work a b n ≤ n := by
  induction n generalizing a b with
  | zero => exact Nat.le_refl 0
  | succ n ih =>
    rw [memcmp_work]
    by_cases h : a.headD 0 = b.headD 0
    · rw [if_pos h]
      have := ih a.tail b.tail
      omega
    · rw [if_neg h]
      omega

theorem memcmp_work_first_diff (n : Nat) (a b : List Nat) (i : Nat) (hi : i < n)
    (heq : ∀ j, j < i → a.getD j 0 = b.getD j 0) (hne : a.getD i 0 ≠ b.getD i 0) :
    memcmp_work a b n = i + 1 := by
  induction n generalizing a b i with
  | zero => omega
  | succ n ih =>
    rw [memcmp_work]
    cases i with
    | zero =>
      rw [← headD_eq_getD, ← headD_eq_getD] at hne
      rw [if_neg hne]
    | succ k =>
      have h0 := heq 0 (by omega)
      rw [← headD_eq_getD, ← headD_eq_getD] at h0
      rw [if_pos h0, ih a.tail b.tail k (by omega)]
      · omega
      · intro j hj
        rw [tail_getD, tail_getD]
        exact heq (j + 1) (by omega)
      · rw [tail_getD, tail_getD]
        exact hne

theorem memcmp_work_equal (n : Nat) (a b : List Nat)
    (heq : ∀ j, j < n → a.getD j 0 = b.getD j 0) : memcmp_work a b n = n := by
  induction n generalizing a b with
  | zero => rfl
  | succ n ih =>
    have h0 := heq 0 (by omega)
    rw [← headD_eq_getD, ← headD_eq_getD] at h0
    rw [memcmp_work, if_pos h0, ih a.tail b.tail]
    · omega
    · intro j hj
      rw [tail_getD, tail_getD]
      exact heq (j + 1) (by omega)

/-! ## The derived key against the reference key -/

theorem specTagKey_length (key : List Nat) (ad_len text_len : Nat) :
    (specTagKey key ad_len text_len).length = 32 := by
  simp [specTagKey]

theorem specTagKey_getD (key : List Nat) (ad_len text_len j : Nat) (hj : j < 32) :
    (specTagKey key ad_len text_len).getD j 0
      = if j = 0 then key.getD 0 0 ^^^ 1
        else if 8 ≤ j ∧ j < 16 then key.getD j 0 ^^^ le64Byte ad_len (j - 8)
        else if 16 ≤ j ∧ j < 24 then key.getD j 0 ^^^ le64Byte text_len (j - 16)
        else key.getD j 0 := by
  unfold specTagKey
  rw [List.getD_eq_getElem?_getD, List.getElem?_map, List.getElem?_range hj]
  rfl

theorem deriveKey_eq_spec (le : Bool) (key : List Nat) (ad_len text_len : Nat)
    (hlen : key.length = 32) (hb : ∀ i, i < 32 → key.getD i 0 < 256)
    (ha : ad_len < SIZE) (ht : text_len < SIZE) :
    deriveKey le key ad_len text_len = specTagKey key ad_len text_len := by
  have l1 : (deriveKey le key ad_len text_len).length = 32 := by
    rw [deriveKey_length, hlen]
  rw [← getD_ext 32 _ _ l1 (specTagKey_length key ad_len text_len)]
  intro j hj
  rw [deriveKey_getD le key ad_len text_len j hlen hb, specTagKey_getD key ad_len text_len j hj,
    Nat.mod_eq_of_lt ha, Nat.mod_eq_of_lt ht]

theorem deriveTag_eq_spec (P : Host) (m : Mem) (key ad_len text_len n : Nat) (ad text : List Nat)
    (hk : ∀ i, i < 32 → m (key + i) < 256) (hla : ad.length = ad_len)
    (hlt : text.length = text_len) (ha : ad_len < SIZE) (ht : text_len < SIZE) :
    DeriveTag P (readBytes m key 32) ad text n = SpecDeriveTag P (readBytes m key 32) ad text n := by
  unfold DeriveTag SpecDeriveTag
  rw [hla, hlt, deriveKey_eq_spec P.little_endian (readBytes m key 32) ad_len text_len
    (readBytes_length m key 32) (readBytes_lt m key 32 hk) ha ht]

/-! ## Claims -/

/-- C1 (round trip).  For arguments that pass validation and buffers that are
distinct objects (the ciphertext buffer may be the plaintext buffer itself, and
the buffer decrypted into may be the ciphertext buffer itself, as in the
driver), `baile_encrypt` returns 0 and `baile_decrypt` applied to the memory it
leaves returns 0 and writes exactly the original text bytes. -/
theorem C1_round_trip (P : Host) (m : Mem) (s1 s2 : Scratch)
    (ctext out tag tag_len ad ad_len text text_len key : Nat)
    (hv : ArgsOk ctext tag tag_len ad ad_len text text_len key)
    (hl : Layout ctext tag tag_len ad ad_len text text_len key)
    (hv2 : ArgsOk out tag tag_len ad ad_len ctext text_len key)
    (hl2 : Layout out tag tag_len ad ad_len ctext text_len key)
    (hb : ∀ i, i < text_len → m (text + i) < 256) :
    (baile_encrypt P m s1 ctext tag tag_len ad ad_len text text_len key).ret = 0 ∧
    (baile_decrypt P (baile_encrypt P m s1 ctext tag tag_len ad ad_len text text_len key).mem
      s2 out tag tag_len ad ad_len ctext text_len key).ret = 0 ∧
    readBytes
      (baile_decrypt P (baile_encrypt P m s1 ctext tag tag_len ad ad_len text text_len key).mem
        s2 out tag tag_len ad ad_len ctext text_len key).mem out text_len
      = readBytes m text text_len := by
  obtain ⟨e1, e2, e3, e4⟩ := encrypt_spec P m s1 ctext tag tag_len ad ad_len text text_len key hv hl
  generalize (baile_encrypt P m s1 ctext tag tag_len ad ad_len text text_len key).mem = m2
    at e2 e3 e4
  obtain ⟨l1, l2, l3, l4, l5, l6, l7⟩ := hl
  obtain ⟨k1, k2, k3, k4, k5, k6, k7⟩ := hl2
  have hK : readBytes m2 key 32 = readBytes m key 32 := by
    apply readBytes_congr
    intro i hi
    apply e4 <;> (unfold Sep at l1 l5; omega)
  have hA : readBytes m2 ad ad_len = readBytes m ad ad_len := by
    apply readBytes_congr
    intro i hi
    apply e4 <;> (unfold Sep at l2 l6; omega)
  have hmem := decrypt_mem P m2 s2 out tag tag_len ad ad_len ctext text_len key hv2 k7
  have hT : readBytes
      (baile_decrypt P m2 s2 out tag tag_len ad ad_len ctext text_len key).mem out text_len
      = readBytes m text text_len := by
    apply readBytes_ext
    intro i hi
    rw [hmem, xorWindow_inside _ _ _ _ _ _ _ hi, hK, e2, e3 i hi]
    exact xor_cancel _ _ (hb i hi)
  refine ⟨e1, ?_, hT⟩
  have k4b : Sep tag tag_len out text_len := k4
  rw [decrypt_ret P m2 s2 out tag tag_len ad ad_len ctext text_len key hv2 k7 k4b k5 k6,
    hT, hK, hA, e2, if_pos (Or.inr rfl)]

/-- Witness of C1: the in-place use of the driver (one buffer is plaintext,
ciphertext and decrypted text), 70 bytes of text, 3 of AD, a 16-byte tag. -/
theorem C1_round_trip_witness :
    (baile_encrypt sampleHost sampleMem sampleScratch 300 400 16 200 3 300 70 100).ret = 0 ∧
    (baile_decrypt sampleHost
      (baile_encrypt sampleHost sampleMem sampleScratch 300 400 16 200 3 300 70 100).mem
      sampleScratch 300 400 16 200 3 300 70 100).ret = 0 ∧
    readBytes
      (baile_decrypt sampleHost
        (baile_encrypt sampleHost sampleMem sampleScratch 300 400 16 200 3 300 70 100).mem
        sampleScratch 300 400 16 200 3 300 70 100).mem 300 70
      = readBytes sampleMem 300 70 :=
  C1_round_trip sampleHost sampleMem sampleScratch sampleScratch 300 300 400 16 200 3 300 70 100
    (by decide) (by decide) (by decide) (by decide)
    (fun i _ => Nat.mod_lt _ (by norm_num))

/-- C2 (reference definition of `baile_encrypt`).  For valid arguments and a
key of 32 bytes, the tag buffer ends up holding the first `tag_len` bytes of
the hash of `ad ++ plaintext ++` zero padding (up to the next multiple of 64),
computed over the initial plaintext and keyed with the derived tag key of the
spec: the master key with bit 0 of byte 0 flipped, `ad_len` XORed little-endian
into bytes 8-15 and `text_len` into bytes 16-23.  Every ciphertext byte is
`text[i] XOR S[i]` with `S` the stream of the hash keyed with the unmodified
master key and fed exactly the `tag_len` tag bytes (no byte when
`tag_len = 0`); and no cell outside the `text_len` ciphertext bytes and the
`tag_len` tag bytes is written. -/
theorem C2_encrypt_reference (P : Host) (m : Mem) (s : Scratch)
    (ctext tag tag_len ad ad_len text text_len key : Nat)
    (hv : ArgsOk ctext tag tag_len ad ad_len text text_len key)
    (hl : Layout ctext tag tag_len ad ad_len text text_len key)
    (hk : ∀ i, i < 32 → m (key + i) < 256)
    (hb : ∀ i, i < text_len → m (text + i) < 256) :
    (0 < tag_len →
      readBytes (baile_encrypt P m s ctext tag tag_len ad ad_len text text_len key).mem tag
          tag_len
        = SpecDeriveTag P (readBytes m key 32) (readBytes m ad ad_len)
            (readBytes m text text_len) tag_len) ∧
    (tag_len = 0 →
      readBytes (baile_encrypt P m s ctext tag tag_len ad ad_len text text_len key).mem tag
          tag_len = []) ∧
    (∀ i, i < text_len →
      (baile_encrypt P m s ctext tag tag_len ad ad_len text text_len key).mem (ctext + i)
        = m (text + i) ^^^ keystream P (readBytes m key 32)
            (readBytes (baile_encrypt P m s ctext tag tag_len ad ad_len text text_len key).mem
              tag tag_len) i) ∧
    (∀ x, ¬ (tag ≤ x ∧ x < tag + tag_len) → ¬ (ctext ≤ x ∧ x < ctext + text_len) →
      (baile_encrypt P m s ctext tag tag_len ad ad_len text text_len key).mem x = m x) := by
  obtain ⟨_, e2, e3, e4⟩ := encrypt_spec P m s ctext tag tag_len ad ad_len text text_len key hv hl
  have h5 : ad_len + text_len < SIZE := hv.2.2.2.2
  have hs := deriveTag_eq_spec P m key ad_len text_len tag_len (readBytes m ad ad_len)
    (readBytes m text text_len) hk (readBytes_length m ad ad_len)
    (readBytes_length m text text_len) (by omega) (by omega)
  refine ⟨fun _ => ?_, ?_, ?_, e4⟩
  · rw [e2, hs]
  · intro h0
    rw [h0]
    rfl
  · intro i hi
    rw [e3 i hi, e2]
    exact xor_byte_mod _ _ (hb i hi)

/-- Witness of C2: 70 bytes of text encrypted in place with a 16-byte tag. -/
theorem C2_encrypt_reference_witness :
    (0 < 16 →
      readBytes (baile_encrypt sampleHost sampleMem sampleScratch 300 400 16 200 3 300 70
          100).mem 400 16
        = SpecDeriveTag sampleHost (readBytes sampleMem 100 32) (readBytes sampleMem 200 3)
            (readBytes sampleMem 300 70) 16) ∧
    (16 = 0 →
      readBytes (baile_encrypt sampleHost sampleMem sampleScratch 300 400 16 200 3 300 70
          100).mem 400 16 = []) ∧
    (∀ i, i < 70 →
      (baile_encrypt sampleHost sampleMem sampleScratch 300 400 16 200 3 300 70 100).mem
          (300 + i)
        = sampleMem (300 + i) ^^^ keystream sampleHost (readBytes sampleMem 100 32)
            (readBytes (baile_encrypt sampleHost sampleMem sampleScratch 300 400 16 200 3 300 70
              100).mem 400 16) i) ∧
    (∀ x, ¬ (400 ≤ x ∧ x < 400 + 16) → ¬ (300 ≤ x ∧ x < 300 + 70) →
      (baile_encrypt sampleHost sampleMem sampleScratch 300 400 16 200 3 300 70 100).mem x
        = sampleMem x) :=
  C2_encrypt_reference sampleHost sampleMem sampleScratch 300 400 16 200 3 300 70 100
    (by decide) (by decide) (fun i _ => Nat.mod_lt _ (by norm_num))
    (fun i _ => Nat.mod_lt _ (by norm_num))

/-- C3 (result of `baile_decrypt`).  For valid arguments the call returns 0 if
and only if `tag_len = 0` or the first `tag_len` bytes of the tag recomputed
over (key, ad, candidate plaintext just written) equal the supplied tag, and
-6 otherwise; with `tag_len = 0` it returns 0; it returns nothing but 0 or -6. -/
theorem C3_decrypt_result (P : Host) (m : Mem) (s : Scratch)
    (text tag tag_len ad ad_len ctext text_len key : Nat)
    (hv : ArgsOk text tag tag_len ad ad_len ctext text_len key)
    (hl : Layout text tag tag_len ad ad_len ctext text_len key) :
    ((baile_decrypt P m s text tag tag_len ad ad_len ctext text_len key).ret = 0 ↔
      (tag_len = 0 ∨
        DeriveTag P (readBytes m key 32) (readBytes m ad ad_len)
          (readBytes (baile_decrypt P m s text tag tag_len ad ad_len ctext text_len key).mem
            text text_len) tag_len = readBytes m tag tag_len)) ∧
    ((baile_decrypt P m s text tag tag_len ad ad_len ctext text_len key).ret ≠ 0 →
      (baile_decrypt P m s text tag tag_len ad ad_len ctext text_len key).ret = -6) ∧
    (tag_len = 0 →
      (baile_decrypt P m s text tag tag_len ad ad_len ctext text_len key).ret = 0) := by
  obtain ⟨_, _, _, l4, l5, l6, l7⟩ := hl
  have hr := decrypt_ret P m s text tag tag_len ad ad_len ctext text_len key hv l7 l4 l5 l6
  have hc := decrypt_ret_cases P m s text tag tag_len ad ad_len ctext text_len key hv
  refine ⟨?_, ?_, ?_⟩
  · constructor
    · intro h0
      by_contra hn
      rw [hr, if_neg hn] at h0
      exact absurd h0 (by decide)
    · intro hp
      rw [hr, if_pos hp]
  · intro hne
    rcases hc with h | h
    · exact absurd h hne
    · exact h
  · intro h0
    rw [hr, if_pos (Or.inl h0)]

/-- Witness of C3: decryption into a separate buffer, 70 bytes, 16-byte tag. -/
theorem C3_decrypt_result_witness :
    ((baile_decrypt sampleHost sampleMem sampleScratch 500 400 16 200 3 300 70 100).ret = 0 ↔
      (16 = 0 ∨
        DeriveTag sampleHost (readBytes sampleMem 100 32) (readBytes sampleMem 200 3)
          (readBytes (baile_decrypt sampleHost sampleMem sampleScratch 500 400 16 200 3 300 70
            100).mem 500 70) 16 = readBytes sampleMem 400 16)) ∧
    ((baile_decrypt sampleHost sampleMem sampleScratch 500 400 16 200 3 300 70 100).ret ≠ 0 →
      (baile_decrypt sampleHost sampleMem sampleScratch 500 400 16 200 3 300 70 100).ret = -6) ∧
    (16 = 0 →
      (baile_decrypt sampleHost sampleMem sampleScratch 500 400 16 200 3 300 70 100).ret = 0) :=
  C3_decrypt_result sampleHost sampleMem sampleScratch 500 400 16 200 3 300 70 100
    (by decide) (by decide)

/-- C4 (the candidate plaintext is always delivered).  For arguments that pass
validation, with the output buffer either the ciphertext buffer itself or
disjoint from it, `baile_decrypt` returns 0 or -6 and in both cases leaves
`text[i] = ctext[i] XOR S[i]` for every `i < text_len`, where `S` is the stream
of the hash keyed with the master key and fed the supplied tag. -/
theorem C4_decrypt_plaintext (P : Host) (m : Mem) (s : Scratch)
    (text tag tag_len ad ad_len ctext text_len key : Nat)
    (hv : ArgsOk text tag tag_len ad ad_len ctext text_len key)
    (hx : text = ctext ∨ Sep text text_len ctext text_len)
    (hb : ∀ i, i < text_len → m (ctext + i) < 256) :
    ((baile_decrypt P m s text tag tag_len ad ad_len ctext text_len key).ret = 0 ∨
      (baile_decrypt P m s text tag tag_len ad ad_len ctext text_len key).ret = -6) ∧
    (∀ i, i < text_len →
      (baile_decrypt P m s text tag tag_len ad ad_len ctext text_len key).mem (text + i)
        = m (ctext + i) ^^^ keystream P (readBytes m key 32) (readBytes m tag tag_len) i) ∧
    (∀ x, ¬ (text ≤ x ∧ x < text + text_len) →
      (baile_decrypt P m s text tag tag_len ad ad_len ctext text_len key).mem x = m x) := by
  refine ⟨decrypt_ret_cases P m s text tag tag_len ad ad_len ctext text_len key hv, ?_, ?_⟩
  · intro i hi
    rw [decrypt_mem P m s text tag tag_len ad ad_len ctext text_len key hv hx,
      xorWindow_inside _ _ _ _ _ _ _ hi]
    exact xor_byte_mod _ _ (hb i hi)
  · intro x hxx
    rw [decrypt_mem P m s text tag tag_len ad ad_len ctext text_len key hv hx]
    exact xorWindow_outside _ _ _ _ _ _ _ _ (by omega)

/-- Witness of C4: in-place decryption of 70 bytes under a 16-byte tag. -/
theorem C4_decrypt_plaintext_witness :
    ((baile_decrypt sampleHost sampleMem sampleScratch 300 400 16 200 3 300 70 100).ret = 0 ∨
      (baile_decrypt sampleHost sampleMem sampleScratch 300 400 16 200 3 300 70 100).ret = -6) ∧
    (∀ i, i < 70 →
      (baile_decrypt sampleHost sampleMem sampleScratch 300 400 16 200 3 300 70 100).mem
          (300 + i)
        = sampleMem (300 + i) ^^^ keystream sampleHost (readBytes sampleMem 100 32)
            (readBytes sampleMem 400 16) i) ∧
    (∀ x, ¬ (300 ≤ x ∧ x < 300 + 70) →
      (baile_decrypt sampleHost sampleMem sampleScratch 300 400 16 200 3 300 70 100).mem x
        = sampleMem x) :=
  C4_decrypt_plaintext sampleHost sampleMem sampleScratch 300 400 16 200 3 300 70 100
    (by decide) (by decide) (fun i _ => Nat.mod_lt _ (by norm_num))

/-- C5 (validation decision table).  For `size_t` lengths, `baile_encrypt`
returns exactly the code of the decision table (-1, -2, -3, -4, -5 for the
first failing check in that order, 0 when no check fails, never -6), each code
identifies its check, and `baile_decrypt` returns the same code whenever a
check fails and 0 or -6 otherwise. -/
theorem C5_validation_table (P : Host) (m : Mem) (s : Scratch)
    (out tag tag_len ad ad_len src text_len key : Nat)
    (ha : ad_len < SIZE) (ht : text_len < SIZE) :
    (baile_encrypt P m s out tag tag_len ad ad_len src text_len key).ret
      = validationTable key tag tag_len ad ad_len src out text_len ∧
    (validationTable key tag tag_len ad ad_len src out text_len ≠ 0 →
      (baile_decrypt P m s out tag tag_len ad ad_len src text_len key).ret
        = validationTable key tag tag_len ad ad_len src out text_len) ∧
    (validationTable key tag tag_len ad ad_len src out text_len = 0 →
      (baile_decrypt P m s out tag tag_len ad ad_len src text_len key).ret = 0 ∨
      (baile_decrypt P m s out tag tag_len ad ad_len src text_len key).ret = -6) ∧
    (baile_encrypt P m s out tag tag_len ad ad_len src text_len key).ret ≠ -6 ∧
    ((baile_encrypt P m s out tag tag_len ad ad_len src text_len key).ret = 0 ↔
      ArgsOk out tag tag_len ad ad_len src text_len key) ∧
    ((baile_encrypt P m s out tag tag_len ad ad_len src text_len key).ret = -1 ↔ key = 0) ∧
    ((baile_encrypt P m s out tag tag_len ad ad_len src text_len key).ret = -2 ↔
      key ≠ 0 ∧ 0 < tag_len ∧ (tag = 0 ∨ 64 < tag_len)) ∧
    ((baile_encrypt P m s out tag tag_len ad ad_len src text_len key).ret = -3 ↔
      key ≠ 0 ∧ ¬ (0 < tag_len ∧ (tag = 0 ∨ 64 < tag_len)) ∧ 0 < ad_len ∧ ad = 0) ∧
    ((baile_encrypt P m s out tag tag_len ad ad_len src text_len key).ret = -4 ↔
      key ≠ 0 ∧ ¬ (0 < tag_len ∧ (tag = 0 ∨ 64 < tag_len)) ∧ ¬ (0 < ad_len ∧ ad = 0) ∧
        0 < text_len ∧ (src = 0 ∨ out = 0)) ∧
    ((baile_encrypt P m s out tag tag_len ad ad_len src text_len key).ret = -5 ↔
      key ≠ 0 ∧ ¬ (0 < tag_len ∧ (tag = 0 ∨ 64 < tag_len)) ∧ ¬ (0 < ad_len ∧ ad = 0) ∧
        ¬ (0 < text_len ∧ (src = 0 ∨ out = 0)) ∧ 2 ^ 64 - 1 < ad_len + text_len) := by
  have henc : (baile_encrypt P m s out tag tag_len ad ad_len src text_len key).ret
      = validationTable key tag tag_len ad ad_len src out text_len := by
    by_cases hv : ArgsOk out tag tag_len ad ad_len src text_len key
    · rw [encrypt_valid P m s _ _ _ _ _ _ _ _ hv, (argsOk_iff_table _ _ _ _ _ _ _ _).mp hv]
    · rw [encrypt_invalid P m s _ _ _ _ _ _ _ _ ha ht hv]
  rw [henc]
  refine ⟨rfl, ?_, ?_, ?_, ?_, ?_, ?_, ?_, ?_, ?_⟩
  · intro hne
    have hv : ¬ ArgsOk out tag tag_len ad ad_len src text_len key :=
      fun h => hne ((argsOk_iff_table _ _ _ _ _ _ _ _).mp h)
    rw [decrypt_invalid P m s _ _ _ _ _ _ _ _ ha ht hv]
  · intro h0
    exact decrypt_ret_cases P m s _ _ _ _ _ _ _ _ ((argsOk_iff_table _ _ _ _ _ _ _ _).mpr h0)
  · unfold validationTable
    split_ifs <;> decide
  · exact (argsOk_iff_table _ _ _ _ _ _ _ _).symm
  · unfold validationTable
    split_ifs <;> simp_all
  · unfold validationTable
    split_ifs <;> simp_all
  · unfold validationTable
    split_ifs <;> simp_all
  · unfold validationTable
    split_ifs <;> simp_all
  · unfold validationTable
    split_ifs <;> simp_all

/-- Witness of C5: a 65-byte tag is refused with -2. -/
theorem C5_validation_table_witness :
    (baile_encrypt sampleHost sampleMem sampleScratch 300 400 65 200 3 300 70 100).ret = -2 :=
  ((C5_validation_table sampleHost sampleMem sampleScratch 300 400 65 200 3 300 70 100
    (by decide) (by decide)).2.2.2.2.2.2.1).mpr (by decide)

/-- C6 (atomicity of misuse errors).  Whenever `baile_encrypt` or
`baile_decrypt` returns one of the codes -1..-5, caller memory is exactly as
it was (neither `ctext`, `tag` nor `text` has been written) and the locals,
the hash state among them, have not been touched. -/
theorem C6_atomic_errors (P : Host) (m : Mem) (s : Scratch)
    (out tag tag_len ad ad_len src text_len key : Nat)
    (ha : ad_len < SIZE) (ht : text_len < SIZE) :
    ((-5 ≤ (baile_encrypt P m s out tag tag_len ad ad_len src text_len key).ret ∧
        (baile_encrypt P m s out tag tag_len ad ad_len src text_len key).ret ≤ -1) →
      (baile_encrypt P m s out tag tag_len ad ad_len src text_len key).mem = m ∧
      (baile_encrypt P m s out tag tag_len ad ad_len src text_len key).loc = s) ∧
    ((-5 ≤ (baile_decrypt P m s out tag tag_len ad ad_len src text_len key).ret ∧
        (baile_decrypt P m s out tag tag_len ad ad_len src text_len key).ret ≤ -1) →
      (baile_decrypt P m s out tag tag_len ad ad_len src text_len key).mem = m ∧
      (baile_decrypt P m s out tag tag_len ad ad_len src text_len key).loc = s) := by
  constructor
  · intro hr
    by_cases hv : ArgsOk out tag tag_len ad ad_len src text_len key
    · rw [encrypt_ret_valid P m s _ _ _ _ _ _ _ _ hv] at hr
      exact absurd hr.2 (by decide)
    · rw [encrypt_invalid P m s _ _ _ _ _ _ _ _ ha ht hv]
      exact ⟨rfl, rfl⟩
  · intro hr
    by_cases hv : ArgsOk out tag tag_len ad ad_len src text_len key
    · rcases decrypt_ret_cases P m s _ _ _ _ _ _ _ _ hv with h | h
      · rw [h] at hr
        exact absurd hr.2 (by decide)
      · rw [h] at hr
        exact absurd hr.1 (by decide)
    · rw [decrypt_invalid P m s _ _ _ _ _ _ _ _ ha ht hv]
      exact ⟨rfl, rfl⟩

/-- Witness of C6: a call with a null key changes nothing. -/
theorem C6_atomic_errors_witness :
    (baile_encrypt sampleHost sampleMem sampleScratch 300 400 16 200 3 300 70 0).mem = sampleMem ∧
    (baile_encrypt sampleHost sampleMem sampleScratch 300 400 16 200 3 300 70 0).loc
      = sampleScratch :=
  (C6_atomic_errors sampleHost sampleMem sampleScratch 300 400 16 200 3 300 70 0
    (by decide) (by decide)).1 (by decide)

/-- C7 (exactness of the length-overflow check).  For 64-bit `ad_len` and
`text_len` the wraparound test of the code holds if and only if the sum
exceeds `2 ^ 64 - 1`; so, when the four earlier checks pass, both operations
return -5 exactly for the pairs whose sum does not fit in 64 bits, and accept
every pair whose sum fits. -/
theorem C7_overflow_check_exact (P : Host) (m : Mem) (s : Scratch)
    (out tag tag_len ad ad_len src text_len key : Nat)
    (ha : ad_len < SIZE) (ht : text_len < SIZE)
    (h1 : key ≠ 0) (h2 : tag_len = 0 ∨ (tag ≠ 0 ∧ tag_len ≤ 64)) (h3 : ad_len = 0 ∨ ad ≠ 0)
    (h4 : text_len = 0 ∨ (out ≠ 0 ∧ src ≠ 0)) :
    (add64 ad_len text_len < ad_len % SIZE ↔ 2 ^ 64 - 1 < ad_len + text_len) ∧
    ((baile_encrypt P m s out tag tag_len ad ad_len src text_len key).ret = -5 ↔
      2 ^ 64 - 1 < ad_len + text_len) ∧
    ((baile_decrypt P m s out tag tag_len ad ad_len src text_len key).ret = -5 ↔
      2 ^ 64 - 1 < ad_len + text_len) ∧
    (ad_len + text_len ≤ 2 ^ 64 - 1 →
      (baile_encrypt P m s out tag tag_len ad ad_len src text_len key).ret = 0 ∧
      ((baile_decrypt P m s out tag tag_len ad ad_len src text_len key).ret = 0 ∨
        (baile_decrypt P m s out tag tag_len ad ad_len src text_len key).ret = -6)) := by
  refine ⟨overflow_iff ad_len text_len ha ht, ?_, ?_, ?_⟩
  · by_cases hov : 2 ^ 64 - 1 < ad_len + text_len
    · have hv : ¬ ArgsOk out tag tag_len ad ad_len src text_len key := by
        intro h
        have := h.2.2.2.2
        simp only [SIZE] at this
        omega
      rw [encrypt_invalid P m s _ _ _ _ _ _ _ _ ha ht hv,
        table_overflow _ _ _ _ _ _ _ _ h1 h2 h3 h4 hov]
      exact ⟨fun _ => hov, fun _ => rfl⟩
    · have hv : ArgsOk out tag tag_len ad ad_len src text_len key :=
        ⟨h1, h2, h3, h4, by simp only [SIZE]; omega⟩
      rw [encrypt_ret_valid P m s _ _ _ _ _ _ _ _ hv]
      exact ⟨fun h => absurd h (by decide), fun h => absurd h hov⟩
  · by_cases hov : 2 ^ 64 - 1 < ad_len + text_len
    · have hv : ¬ ArgsOk out tag tag_len ad ad_len src text_len key := by
        intro h
        have := h.2.2.2.2
        simp only [SIZE] at this
        omega
      rw [decrypt_invalid P m s _ _ _ _ _ _ _ _ ha ht hv,
        table_overflow _ _ _ _ _ _ _ _ h1 h2 h3 h4 hov]
      exact ⟨fun _ => hov, fun _ => rfl⟩
    · have hv : ArgsOk out tag tag_len ad ad_len src text_len key :=
        ⟨h1, h2, h3, h4, by simp only [SIZE]; omega⟩
      constructor
      · intro h
        rcases decrypt_ret_cases P m s _ _ _ _ _ _ _ _ hv with h' | h'
        · rw [h'] at h
          exact absurd h (by decide)
        · rw [h'] at h
          exact absurd h (by decide)
      · intro h
        exact absurd h hov
  · intro hfit
    have hv : ArgsOk out tag tag_len ad ad_len src text_len key :=
      ⟨h1, h2, h3, h4, by simp only [SIZE]; omega⟩
    constructor
    · exact encrypt_ret_valid P m s _ _ _ _ _ _ _ _ hv
    · exact decrypt_ret_cases P m s _ _ _ _ _ _ _ _ hv

/-- Witness of C7: `ad_len = 2 ^ 64 - 1` and `text_len = 1` are refused with -5,
by both operations. -/
theorem C7_overflow_check_exact_witness :
    (baile_encrypt sampleHost sampleMem sampleScratch 300 400 16 200 18446744073709551615 300 1
      100).ret = -5 ∧
    (baile_decrypt sampleHost sampleMem sampleScratch 300 400 16 200 18446744073709551615 300 1
      100).ret = -5 :=
  ⟨(C7_overflow_check_exact sampleHost sampleMem sampleScratch 300 400 16 200
      18446744073709551615 300 1 100 (by decide) (by decide) (by decide) (by decide)
      (by decide) (by decide)).2.1.mpr (by decide),
    (C7_overflow_check_exact sampleHost sampleMem sampleScratch 300 400 16 200
      18446744073709551615 300 1 100 (by decide) (by decide) (by decide) (by decide)
      (by decide) (by decide)).2.2.1.mpr (by decide)⟩

/-- C8 (aliasing equivalence).  From the same initial memory, `baile_encrypt`
with `ctext` being the storage of `text` (`src`) and `baile_encrypt` with
another valid `ctext` buffer `dst` give the same return code, the same tag and
the same ciphertext bytes; likewise `baile_decrypt` in place and into `dst`
give the same return code and the same plaintext bytes. -/
theorem C8_aliasing_equivalence (P : Host) (m : Mem) (sA sB : Scratch)
    (dst tag tag_len ad ad_len src text_len key : Nat)
    (hvA : ArgsOk src tag tag_len ad ad_len src text_len key)
    (hlA : Layout src tag tag_len ad ad_len src text_len key)
    (hvB : ArgsOk dst tag tag_len ad ad_len src text_len key)
    (hlB : Layout dst tag tag_len ad ad_len src text_len key) :
    ((baile_encrypt P m sA src tag tag_len ad ad_len src text_len key).ret
        = (baile_encrypt P m sB dst tag tag_len ad ad_len src text_len key).ret ∧
      readBytes (baile_encrypt P m sA src tag tag_len ad ad_len src text_len key).mem tag tag_len
        = readBytes (baile_encrypt P m sB dst tag tag_len ad ad_len src text_len key).mem tag
            tag_len ∧
      readBytes (baile_encrypt P m sA src tag tag_len ad ad_len src text_len key).mem src
          text_len
        = readBytes (baile_encrypt P m sB dst tag tag_len ad ad_len src text_len key).mem dst
            text_len) ∧
    ((baile_decrypt P m sA src tag tag_len ad ad_len src text_len key).ret
        = (baile_decrypt P m sB dst tag tag_len ad ad_len src text_len key).ret ∧
      readBytes (baile_decrypt P m sA src tag tag_len ad ad_len src text_len key).mem src
          text_len
        = readBytes (baile_decrypt P m sB dst tag tag_len ad ad_len src text_len key).mem dst
            text_len) := by
  obtain ⟨a1, a2⟩ := encrypt_outputs P m sA src tag tag_len ad ad_len src text_len key hvA hlA
  obtain ⟨b1, b2⟩ := encrypt_outputs P m sB dst tag tag_len ad ad_len src text_len key hvB hlB
  obtain ⟨c1, c2⟩ := decrypt_outputs P m sA src tag tag_len ad ad_len src text_len key hvA hlA
  obtain ⟨d1, d2⟩ := decrypt_outputs P m sB dst tag tag_len ad ad_len src text_len key hvB hlB
  refine ⟨⟨?_, ?_, ?_⟩, ?_, ?_⟩
  · rw [encrypt_ret_valid P m sA _ _ _ _ _ _ _ _ hvA, encrypt_ret_valid P m sB _ _ _ _ _ _ _ _ hvB]
  · rw [a1, b1]
  · rw [a2, b2]
  · rw [c2, d2]
  · rw [c1, d1]

/-- Witness of C8: 70 bytes at 300 processed in place and into the disjoint
buffer at 500. -/
theorem C8_aliasing_equivalence_witness :
    ((baile_encrypt sampleHost sampleMem sampleScratch 300 400 16 200 3 300 70 100).ret
        = (baile_encrypt sampleHost sampleMem sampleScratch 500 400 16 200 3 300 70 100).ret ∧
      readBytes (baile_encrypt sampleHost sampleMem sampleScratch 300 400 16 200 3 300 70
          100).mem 400 16
        = readBytes (baile_encrypt sampleHost sampleMem sampleScratch 500 400 16 200 3 300 70
            100).mem 400 16 ∧
      readBytes (baile_encrypt sampleHost sampleMem sampleScratch 300 400 16 200 3 300 70
          100).mem 300 70
        = readBytes (baile_encrypt sampleHost sampleMem sampleScratch 500 400 16 200 3 300 70
            100).mem 500 70) ∧
    ((baile_decrypt sampleHost sampleMem sampleScratch 300 400 16 200 3 300 70 100).ret
        = (baile_decrypt sampleHost sampleMem sampleScratch 500 400 16 200 3 300 70 100).ret ∧
      readBytes (baile_decrypt sampleHost sampleMem sampleScratch 300 400 16 200 3 300 70
          100).mem 300 70
        = readBytes (baile_decrypt sampleHost sampleMem sampleScratch 500 400 16 200 3 300 70
            100).mem 500 70) :=
  C8_aliasing_equivalence sampleHost sampleMem sampleScratch sampleScratch 500 400 16 200 3 300
    70 100 (by decide) (by decide) (by decide) (by decide)

/-- C10 (determinism).  Two valid `baile_encrypt` calls whose keys, associated
data and texts have the same contents and whose `tag_len` is the same return
the same code and leave byte-identical ciphertexts and tags, whatever the
addresses of the buffers, the prior contents of the output buffers and of the
rest of memory, and the prior contents of the locals. -/
theorem C10_determinism (P : Host) (m1 m2 : Mem) (s1 s2 : Scratch)
    (ctext1 tag1 ad1 text1 key1 ctext2 tag2 ad2 text2 key2 tag_len ad_len text_len : Nat)
    (hv1 : ArgsOk ctext1 tag1 tag_len ad1 ad_len text1 text_len key1)
    (hl1 : Layout ctext1 tag1 tag_len ad1 ad_len text1 text_len key1)
    (hv2 : ArgsOk ctext2 tag2 tag_len ad2 ad_len text2 text_len key2)
    (hl2 : Layout ctext2 tag2 tag_len ad2 ad_len text2 text_len key2)
    (hk : readBytes m1 key1 32 = readBytes m2 key2 32)
    (had : readBytes m1 ad1 ad_len = readBytes m2 ad2 ad_len)
    (htx : readBytes m1 text1 text_len = readBytes m2 text2 text_len) :
    (baile_encrypt P m1 s1 ctext1 tag1 tag_len ad1 ad_len text1 text_len key1).ret
      = (baile_encrypt P m2 s2 ctext2 tag2 tag_len ad2 ad_len text2 text_len key2).ret ∧
    readBytes (baile_encrypt P m1 s1 ctext1 tag1 tag_len ad1 ad_len text1 text_len key1).mem
        ctext1 text_len
      = readBytes (baile_encrypt P m2 s2 ctext2 tag2 tag_len ad2 ad_len text2 text_len key2).mem
          ctext2 text_len ∧
    readBytes (baile_encrypt P m1 s1 ctext1 tag1 tag_len ad1 ad_len text1 text_len key1).mem
        tag1 tag_len
      = readBytes (baile_encrypt P m2 s2 ctext2 tag2 tag_len ad2 ad_len text2 text_len key2).mem
          tag2 tag_len := by
  obtain ⟨a1, a2⟩ := encrypt_outputs P m1 s1 ctext1 tag1 tag_len ad1 ad_len text1 text_len key1
    hv1 hl1
  obtain ⟨b1, b2⟩ := encrypt_outputs P m2 s2 ctext2 tag2 tag_len ad2 ad_len text2 text_len key2
    hv2 hl2
  refine ⟨?_, ?_, ?_⟩
  · rw [encrypt_ret_valid P m1 s1 _ _ _ _ _ _ _ _ hv1,
      encrypt_ret_valid P m2 s2 _ _ _ _ _ _ _ _ hv2]
  · rw [a2, b2, hk, had, htx]
  · rw [a1, b1, hk, had, htx]

/-- Witness of C10: the same key, AD and text in two memories that differ
elsewhere, with output buffers at different addresses and different locals. -/
theorem C10_determinism_witness :
    (baile_encrypt sampleHost sampleMem sampleScratch 500 400 16 200 3 300 70 100).ret
      = (baile_encrypt sampleHost sampleMem2 sampleScratch2 600 700 16 200 3 300 70 100).ret ∧
    readBytes (baile_encrypt sampleHost sampleMem sampleScratch 500 400 16 200 3 300 70 100).mem
        500 70
      = readBytes
          (baile_encrypt sampleHost sampleMem2 sampleScratch2 600 700 16 200 3 300 70 100).mem
          600 70 ∧
    readBytes (baile_encrypt sampleHost sampleMem sampleScratch 500 400 16 200 3 300 70 100).mem
        400 16
      = readBytes
          (baile_encrypt sampleHost sampleMem2 sampleScratch2 600 700 16 200 3 300 70 100).mem
          700 16 :=
  C10_determinism sampleHost sampleMem sampleMem2 sampleScratch sampleScratch2
    500 400 200 300 100 600 700 200 300 100 16 3 70
    (by decide) (by decide) (by decide) (by decide) (by decide) (by decide) (by decide)

/-- C9 (parameter roles), evaluated at a call written after the declaration in
`baile.h`: 4th and 5th arguments a 2-byte text at 300, 6th and 7th a 5-byte AD
at 200, no tag.  The definition returns 0, writes 5 ciphertext bytes, which
are the bytes at 200 (the 6th argument) XORed with the keystream: the first
byte is not the XOR of the first byte of the 4th argument, and the byte at
index 4, beyond the 5th argument, is overwritten. -/
theorem C9_header_order_mismatch :
    (baile_encrypt sampleHost sampleMem sampleScratch 500 0 0 300 2 200 5 100).ret = 0 ∧
    (∀ i, i < 5 →
      (baile_encrypt sampleHost sampleMem sampleScratch 500 0 0 300 2 200 5 100).mem (500 + i)
        = sampleMem (200 + i) ^^^ keystream sampleHost (readBytes sampleMem 100 32) [] i) ∧
    (baile_encrypt sampleHost sampleMem sampleScratch 500 0 0 300 2 200 5 100).mem 500
      ≠ sampleMem 300 ^^^ keystream sampleHost (readBytes sampleMem 100 32) [] 0 ∧
    (baile_encrypt sampleHost sampleMem sampleScratch 500 0 0 300 2 200 5 100).mem 504
      ≠ sampleMem 504 := by
  obtain ⟨e1, _, e3, _⟩ := encrypt_spec sampleHost sampleMem sampleScratch 500 0 0 300 2 200 5 100
    (by decide) (by decide)
  have hD : DeriveTag sampleHost (readBytes sampleMem 100 32) (readBytes sampleMem 300 2)
      (readBytes sampleMem 200 5) 0 = [] := rfl
  rw [hD] at e3
  have hb : ∀ i, i < 5 → sampleMem (200 + i) < 256 := fun i _ => Nat.mod_lt _ (by norm_num)
  have e4 : ∀ i, i < 5 →
      (baile_encrypt sampleHost sampleMem sampleScratch 500 0 0 300 2 200 5 100).mem (500 + i)
        = sampleMem (200 + i) ^^^ keystream sampleHost (readBytes sampleMem 100 32) [] i := by
    intro i hi
    rw [e3 i hi]
    exact xor_byte_mod _ _ (hb i hi)
  refine ⟨e1, e4, ?_, ?_⟩
  · rw [e4 0 (by decide)]
    decide
  · rw [e4 4 (by decide)]
    decide

/-- C12 (derived tag-key formula).  For a 32-byte master key and 64-bit
lengths, the key that `baile_tag_input` initialises the hash with has 32
bytes, byte 0 is `key[0] XOR 1`, bytes `8 + i` are
`key[8 + i] XOR ((ad_len >> 8i) AND 0xff)`, bytes `16 + i` are
`key[16 + i] XOR ((text_len >> 8i) AND 0xff)` for `i < 8`, and bytes 1..7 and
24..31 are those of the master key.  `baile_tag_input` only reads caller memory,
and a valid `baile_encrypt` call leaves the 32 key bytes as they were. -/
theorem C12_derived_key (P : Host) (m : Mem) (s : Scratch)
    (ctext tag tag_len ad ad_len text text_len key : Nat)
    (hk : ∀ i, i < 32 → m (key + i) < 256) (ha : ad_len < SIZE) (ht : text_len < SIZE) :
    (hasherKey (baile_tag_input P m ad ad_len text text_len key).1).length = 32 ∧
    (hasherKey (baile_tag_input P m ad ad_len text text_len key).1).getD 0 0
      = m (key + 0) ^^^ 1 ∧
    (∀ i, i < 8 →
      (hasherKey (baile_tag_input P m ad ad_len text text_len key).1).getD (8 + i) 0
        = m (key + (8 + i)) ^^^ le64Byte ad_len i) ∧
    (∀ i, i < 8 →
      (hasherKey (baile_tag_input P m ad ad_len text text_len key).1).getD (16 + i) 0
        = m (key + (16 + i)) ^^^ le64Byte text_len i) ∧
    (∀ j, (1 ≤ j ∧ j < 8) ∨ (24 ≤ j ∧ j < 32) →
      (hasherKey (baile_tag_input P m ad ad_len text text_len key).1).getD j 0
        = m (key + j)) ∧
    (ArgsOk ctext tag tag_len ad ad_len text text_len key →
      Layout ctext tag tag_len ad ad_len text text_len key →
      readBytes (baile_encrypt P m s ctext tag tag_len ad ad_len text text_len key).mem key 32
        = readBytes m key 32) := by
  have hb := readBytes_lt m key 32 hk
  have hl : (readBytes m key 32).length = 32 := readBytes_length m key 32
  have ea : ad_len % SIZE = ad_len := Nat.mod_eq_of_lt ha
  have et : text_len % SIZE = text_len := Nat.mod_eq_of_lt ht
  have hg : ∀ j, (hasherKey (baile_tag_input P m ad ad_len text text_len key).1).getD j 0
      = if j = 0 then (readBytes m key 32).getD 0 0 ^^^ 1
        else if 8 ≤ j ∧ j < 16 then (readBytes m key 32).getD j 0 ^^^ le64Byte ad_len (j - 8)
        else if 16 ≤ j ∧ j < 24 then
          (readBytes m key 32).getD j 0 ^^^ le64Byte text_len (j - 16)
        else (readBytes m key 32).getD j 0 := by
    intro j
    rw [tag_input_key, deriveKey_getD _ _ _ _ _ hl hb, ea, et]
  refine ⟨?_, ?_, ?_, ?_, ?_, ?_⟩
  · rw [tag_input_key, deriveKey_length, hl]
  · rw [hg, if_pos rfl, readBytes_getD m key 32 0 (by omega)]
  · intro i hi
    have e : 8 + i - 8 = i := by omega
    rw [hg, if_neg (by omega), if_pos (by omega), readBytes_getD m key 32 _ (by omega), e]
  · intro i hi
    have e : 16 + i - 16 = i := by omega
    rw [hg, if_neg (by omega), if_neg (by omega), if_pos (by omega),
      readBytes_getD m key 32 _ (by omega), e]
  · intro j hj
    rw [hg, if_neg (by omega), if_neg (by omega), if_neg (by omega),
      readBytes_getD m key 32 _ (by omega)]
  · intro hv hlay
    obtain ⟨_, _, _, e4⟩ := encrypt_spec P m s ctext tag tag_len ad ad_len text text_len key
      hv hlay
    obtain ⟨l1, _, _, _, l5, _, _⟩ := hlay
    apply readBytes_congr
    intro i hi
    apply e4 <;> (unfold Sep at l1 l5; omega)

/-- Witness of C12: the key at 100 of the sample memory, `ad_len = 3`,
`text_len = 70`. -/
theorem C12_derived_key_witness :
    (hasherKey (baile_tag_input sampleHost sampleMem 200 3 300 70 100).1).length = 32 ∧
    (hasherKey (baile_tag_input sampleHost sampleMem 200 3 300 70 100).1).getD 0 0
      = sampleMem (100 + 0) ^^^ 1 :=
  ⟨(C12_derived_key sampleHost sampleMem sampleScratch 300 400 16 200 3 300 70 100
      (fun i _ => Nat.mod_lt _ (by norm_num)) (by decide) (by decide)).1,
    (C12_derived_key sampleHost sampleMem sampleScratch 300 400 16 200 3 300 70 100
      (fun i _ => Nat.mod_lt _ (by norm_num)) (by decide) (by decide)).2.1⟩

/-- C13 (domain separation of hash keys).  For a 32-byte master key and 64-bit
lengths, the key of the tag hash differs from the key of the keystream hash
(the master key), whatever the lengths; and for a fixed master key equal
derived keys force equal `ad_len` and equal `text_len`. -/
theorem C13_domain_separation (P : Host) (m : Mem)
    (tag tag_len ad ad_len text text_len ad2 ad_len2 text2 text_len2 key : Nat)
    (hk : ∀ i, i < 32 → m (key + i) < 256) (ha : ad_len < SIZE) (ht : text_len < SIZE)
    (ha2 : ad_len2 < SIZE) (ht2 : text_len2 < SIZE) :
    hasherKey (streamHasher m tag tag_len key) = readBytes m key 32 ∧
    hasherKey (baile_tag_input P m ad ad_len text text_len key).1
      ≠ hasherKey (streamHasher m tag tag_len key) ∧
    (hasherKey (baile_tag_input P m ad ad_len text text_len key).1
        = hasherKey (baile_tag_input P m ad2 ad_len2 text2 text_len2 key).1 →
      ad_len = ad_len2 ∧ text_len = text_len2) := by
  have hb := readBytes_lt m key 32 hk
  have hl : (readBytes m key 32).length = 32 := readBytes_length m key 32
  have hs : hasherKey (streamHasher m tag tag_len key) = readBytes m key 32 := by
    rw [streamHasher_eq]
    rfl
  refine ⟨hs, ?_, ?_⟩
  · rw [hs, tag_input_key]
    intro h
    have h0 := congrArg (fun l => l.getD 0 0) h
    simp only at h0
    rw [deriveKey_getD _ _ _ _ _ hl hb, if_pos rfl] at h0
    have h1 : (readBytes m key 32).getD 0 0 ^^^ 1 = (readBytes m key 32).getD 0 0 ^^^ 0 := by
      rw [h0, Nat.xor_zero]
    exact absurd (Nat.xor_right_inj.mp h1) (by decide)
  · intro h
    rw [tag_input_key, tag_input_key] at h
    have hg : ∀ j, (deriveKey P.little_endian (readBytes m key 32) ad_len text_len).getD j 0
        = (deriveKey P.little_endian (readBytes m key 32) ad_len2 text_len2).getD j 0 := by
      intro j
      rw [h]
    constructor
    · apply le64_inj _ _ ha ha2
      intro i hi
      have := hg (8 + i)
      rw [deriveKey_getD_ad _ _ _ _ _ hl hb hi, deriveKey_getD_ad _ _ _ _ _ hl hb hi,
        Nat.mod_eq_of_lt ha, Nat.mod_eq_of_lt ha2] at this
      exact Nat.xor_right_inj.mp this
    · apply le64_inj _ _ ht ht2
      intro i hi
      have := hg (16 + i)
      rw [deriveKey_getD_text _ _ _ _ _ hl hb hi, deriveKey_getD_text _ _ _ _ _ hl hb hi,
        Nat.mod_eq_of_lt ht, Nat.mod_eq_of_lt ht2] at this
      exact Nat.xor_right_inj.mp this

/-- Witness of C13: the sample key with lengths (3, 70) and (4, 69). -/
theorem C13_domain_separation_witness :
    hasherKey (baile_tag_input sampleHost sampleMem 200 3 300 70 100).1
      ≠ hasherKey (streamHasher sampleMem 400 16 100) :=
  (C13_domain_separation sampleHost sampleMem 400 16 200 3 300 70 200 4 300 69 100
    (fun i _ => Nat.mod_lt _ (by norm_num)) (by decide) (by decide) (by decide)
    (by decide)).2.1

/-- C20 (the two branches of `xor64le` agree).  For 8 destination bytes at
offset `o` of an array and a 64-bit `x`, the little-endian-host branch and the
portable branch leave the same array; its bytes `o + i`, `i < 8`, are
`d[o + i] XOR ((x >> 8i) AND 0xff)` and every other byte is unchanged. -/
theorem C20_xor64le_branches_agree (d : List Nat) (o x : Nat) (hlen : o + 8 ≤ d.length)
    (hb : ∀ i, i < 8 → d.getD (o + i) 0 < 256) (hx : x < SIZE) :
    xor64le_word d o x = xor64le_bytes d o x ∧
    xor64le true d o x = xor64le false d o x ∧
    (∀ i, i < 8 → (xor64le_bytes d o x).getD (o + i) 0 = d.getD (o + i) 0 ^^^ le64Byte x i) ∧
    (∀ j, ¬ (o ≤ j ∧ j < o + 8) → (xor64le_bytes d o x).getD j 0 = d.getD j 0) ∧
    (xor64le_bytes d o x).length = d.length := by
  have hxm : x % SIZE = x := Nat.mod_eq_of_lt hx
  have lw : (xor64le_word d o x).length = d.length := xor64le_length true d o x
  have lb : (xor64le_bytes d o x).length = d.length := xor64le_length false d o x
  have heq : xor64le_word d o x = xor64le_bytes d o x := by
    rw [← getD_ext d.length _ _ lw lb]
    intro j _
    rw [xor64le_word_getD d o x j hlen hb, xor64le_bytes_getD_ref d o x j hlen hb]
  refine ⟨heq, ?_, ?_, ?_, lb⟩
  · simpa [xor64le] using heq
  · intro i hi
    have e : o + i - o = i := by omega
    rw [xor64le_bytes_getD_ref d o x _ hlen hb, if_pos (by omega), hxm, e]
  · intro j hj
    rw [xor64le_bytes_getD_ref d o x _ hlen hb, if_neg hj]

/-- Witness of C20: the 8 bytes 1..8 and `x = 0x0102030405060708`. -/
theorem C20_xor64le_branches_agree_witness :
    xor64le_word [1, 2, 3, 4, 5, 6, 7, 8] 0 72623859790382856
      = xor64le_bytes [1, 2, 3, 4, 5, 6, 7, 8] 0 72623859790382856 :=
  (C20_xor64le_branches_agree [1, 2, 3, 4, 5, 6, 7, 8] 0 72623859790382856 (by decide)
    (by decide) (by decide)).1

/-- C14 (tag-hash message and padding).  For every `x`, `align64 x < 64`,
`x + align64 x` is a multiple of 64 and `align64 x = 0` exactly when `x` is a
multiple of 64 (with the five values of the comment in `baile.c`).  For
lengths that passed validation, the message fed to the tag hash is
`ad ++ text ++ p` zero bytes with `p = align64 (ad_len + text_len)`, its length
is the least multiple of 64 that is at least `ad_len + text_len`, and `p` does
not exceed the 64 bytes of `zeros`. -/
theorem C14_padding (x : Nat) (P : Host) (m : Mem) (ad ad_len text text_len key : Nat)
    (hlen : ad_len + text_len < SIZE) :
    (align64 x < 64 ∧ (x + align64 x) % 64 = 0 ∧ (align64 x = 0 ↔ x % 64 = 0)) ∧
    (align64 0 = 0 ∧ align64 1 = 63 ∧ align64 63 = 1 ∧ align64 64 = 0 ∧ align64 65 = 63) ∧
    hasherMsg (baile_tag_input P m ad ad_len text text_len key).1
      = readBytes m ad ad_len ++ readBytes m text text_len
          ++ List.replicate (align64 (ad_len + text_len)) 0 ∧
    (hasherMsg (baile_tag_input P m ad ad_len text text_len key).1).length
      = 64 * ((ad_len + text_len + 63) / 64) ∧
    ad_len + text_len ≤ (hasherMsg (baile_tag_input P m ad ad_len text text_len key).1).length ∧
    (∀ k, ad_len + text_len ≤ 64 * k →
      (hasherMsg (baile_tag_input P m ad ad_len text text_len key).1).length ≤ 64 * k) ∧
    align64 (ad_len + text_len) ≤ zeros.length := by
  have hmsg : hasherMsg (baile_tag_input P m ad ad_len text text_len key).1
      = readBytes m ad ad_len ++ readBytes m text text_len
          ++ List.replicate (align64 (ad_len + text_len)) 0 := by
    rw [tag_input_hasher P m _ _ _ _ _ hlen, align64_eq]
    simp only [hasherMsg, tagMessage, readBytes_length]
  have hl : (hasherMsg (baile_tag_input P m ad ad_len text text_len key).1).length
      = ad_len + text_len + (64 - (ad_len + text_len) % 64) % 64 := by
    rw [hmsg, align64_eq]
    simp only [List.length_append, readBytes_length, List.length_replicate]
  refine ⟨⟨?_, ?_, ?_⟩, ⟨by decide, by decide, by decide, by decide, by decide⟩, hmsg, ?_, ?_,
    ?_, ?_⟩
  · rw [align64_eq]; omega
  · rw [align64_eq]; omega
  · rw [align64_eq]; omega
  · rw [hl]; omega
  · rw [hl]; omega
  · intro k hk
    rw [hl]; omega
  · rw [align64_eq]
    simp only [zeros, List.length_replicate]
    omega

/-- Witness of C14: 3 bytes of AD and 70 bytes of text are padded to 128. -/
theorem C14_padding_witness :
    (hasherMsg (baile_tag_input sampleHost sampleMem 200 3 300 70 100).1).length
      = 64 * ((3 + 70 + 63) / 64) :=
  (C14_padding 65 sampleHost sampleMem 200 3 300 70 100 (by decide)).2.2.2.1

/-- C15 (block-wise keystream XOR equals the one-shot definition).  With the
seekable output of the hash a stream `S`, for a `size_t` length and `dst`
either `src` itself or disjoint from it, `blake3_hasher_finalize_xor` leaves
`dst[i] = src[i] XOR S[i]` for every `i < len`, whether `i` lies in a full
block or in the trailing one, writes no cell outside `dst[0 .. len)`, and for
`len = 0` returns memory and scratch block as they were. -/
theorem C15_finalize_xor_one_shot (P : Host) (h : Hasher) (m : Mem) (dst src len : Nat)
    (buf0 : List Nat) (hlen : len < SIZE) (hx : dst = src ∨ Sep dst len src len)
    (hb : ∀ i, i < len → m (src + i) < 256) :
    (∀ i, i < len →
      (blake3_hasher_finalize_xor P h m dst src len buf0).1 (dst + i)
        = m (src + i) ^^^ (hasherOut P h i % 256)) ∧
    (∀ i, i < len →
      (blake3_hasher_finalize_seek P h 0 len).getD i 0 = hasherOut P h i % 256) ∧
    (∀ a, ¬ (dst ≤ a ∧ a < dst + len) →
      (blake3_hasher_finalize_xor P h m dst src len buf0).1 a = m a) ∧
    (len = 0 → blake3_hasher_finalize_xor P h m dst src len buf0 = (m, buf0)) := by
  have hm := finalize_xor_mem P h m dst src len buf0 hlen (sep_order _ _ _ hx)
  refine ⟨?_, ?_, ?_, ?_⟩
  · intro i hi
    rw [hm, xorWindow_inside _ _ _ _ _ _ _ hi]
    exact xor_byte_mod _ _ (hb i hi)
  · intro i hi
    rw [seek_getD P h 0 len i hi, Nat.zero_add]
  · intro a ha
    rw [hm]
    exact xorWindow_outside _ _ _ _ _ _ _ _ (by omega)
  · intro h0
    unfold blake3_hasher_finalize_xor
    rw [if_pos h0]

/-- Witness of C15: 130 bytes (two full blocks and two trailing bytes) in place. -/
theorem C15_finalize_xor_one_shot_witness :
    (blake3_hasher_finalize_xor sampleHost (Hasher.keyed [1, 2] [3]) sampleMem 300 300 130
      sampleScratch.buf).1 (300 + 129)
      = sampleMem (300 + 129) ^^^ (hasherOut sampleHost (Hasher.keyed [1, 2] [3]) 129 % 256) :=
  (C15_finalize_xor_one_shot sampleHost (Hasher.keyed [1, 2] [3]) sampleMem 300 300 130
    sampleScratch.buf (by decide) (by decide) (fun i _ => Nat.mod_lt _ (by norm_num))).1
    129 (by decide)

/-- C18 (with `tag_len = 0` the keystream depends on the key alone).  For two
valid calls of `baile_encrypt` with `tag_len = 0` and keys of equal contents,
each ciphertext is the text XORed with the stream of the hash keyed with the
key and fed nothing, so it does not depend on the associated data, and
`ctext1[i] XOR ctext2[i] = text1[i] XOR text2[i]` for every `i` below both
lengths. -/
theorem C18_untagged_keystream_reuse (P : Host) (m1 m2 : Mem) (s1 s2 : Scratch)
    (ctext1 tag1 ad1 ad_len1 text1 text_len1 key1 : Nat)
    (ctext2 tag2 ad2 ad_len2 text2 text_len2 key2 : Nat)
    (hv1 : ArgsOk ctext1 tag1 0 ad1 ad_len1 text1 text_len1 key1)
    (hl1 : Layout ctext1 tag1 0 ad1 ad_len1 text1 text_len1 key1)
    (hv2 : ArgsOk ctext2 tag2 0 ad2 ad_len2 text2 text_len2 key2)
    (hl2 : Layout ctext2 tag2 0 ad2 ad_len2 text2 text_len2 key2)
    (hk : readBytes m1 key1 32 = readBytes m2 key2 32)
    (hb1 : ∀ i, i < text_len1 → m1 (text1 + i) < 256)
    (hb2 : ∀ i, i < text_len2 → m2 (text2 + i) < 256) :
    readBytes (baile_encrypt P m1 s1 ctext1 tag1 0 ad1 ad_len1 text1 text_len1 key1).mem ctext1
        text_len1
      = xorStream P (readBytes m1 key1 32) [] (readBytes m1 text1 text_len1) ∧
    readBytes (baile_encrypt P m2 s2 ctext2 tag2 0 ad2 ad_len2 text2 text_len2 key2).mem ctext2
        text_len2
      = xorStream P (readBytes m1 key1 32) [] (readBytes m2 text2 text_len2) ∧
    (∀ i, i < text_len1 → i < text_len2 →
      (baile_encrypt P m1 s1 ctext1 tag1 0 ad1 ad_len1 text1 text_len1 key1).mem (ctext1 + i)
        ^^^ (baile_encrypt P m2 s2 ctext2 tag2 0 ad2 ad_len2 text2 text_len2 key2).mem
          (ctext2 + i)
        = m1 (text1 + i) ^^^ m2 (text2 + i)) := by
  obtain ⟨_, a2⟩ := encrypt_outputs P m1 s1 ctext1 tag1 0 ad1 ad_len1 text1 text_len1 key1
    hv1 hl1
  obtain ⟨_, b2⟩ := encrypt_outputs P m2 s2 ctext2 tag2 0 ad2 ad_len2 text2 text_len2 key2
    hv2 hl2
  obtain ⟨_, _, a3, _⟩ := encrypt_spec P m1 s1 ctext1 tag1 0 ad1 ad_len1 text1 text_len1 key1
    hv1 hl1
  obtain ⟨_, _, b3, _⟩ := encrypt_spec P m2 s2 ctext2 tag2 0 ad2 ad_len2 text2 text_len2 key2
    hv2 hl2
  rw [deriveTag_zero] at a2 a3 b2 b3
  rw [← hk] at b2 b3
  refine ⟨a2, b2, ?_⟩
  intro i hi1 hi2
  rw [a3 i hi1, b3 i hi2]
  unfold keystream
  rw [xor_byte_mod _ _ (hb1 i hi1), xor_byte_mod _ _ (hb2 i hi2), xor_pair_cancel]

/-- Witness of C18: two texts of 70 and 40 bytes under the sample key, with
different associated data. -/
theorem C18_untagged_keystream_reuse_witness :
    readBytes (baile_encrypt sampleHost sampleMem sampleScratch 500 0 0 200 3 300 70 100).mem 500
        70
      = xorStream sampleHost (readBytes sampleMem 100 32) [] (readBytes sampleMem 300 70) ∧
    readBytes (baile_encrypt sampleHost sampleMem sampleScratch 700 0 0 240 9 600 40 100).mem 700
        40
      = xorStream sampleHost (readBytes sampleMem 100 32) [] (readBytes sampleMem 600 40) ∧
    (∀ i, i < 70 → i < 40 →
      (baile_encrypt sampleHost sampleMem sampleScratch 500 0 0 200 3 300 70 100).mem (500 + i)
        ^^^ (baile_encrypt sampleHost sampleMem sampleScratch 700 0 0 240 9 600 40 100).mem
          (700 + i)
        = sampleMem (300 + i) ^^^ sampleMem (600 + i)) :=
  C18_untagged_keystream_reuse sampleHost sampleMem sampleMem sampleScratch sampleScratch
    500 0 200 3 300 70 100 700 0 240 9 600 40 100
    (by decide) (by decide) (by decide) (by decide) rfl
    (fun i _ => Nat.mod_lt _ (by norm_num)) (fun i _ => Nat.mod_lt _ (by norm_num))

/-- C19 (`tag_len` is not bound into the tag derivation).  The key and the
message of the tag hash do not involve `tag_len`; so, from the same memory and
for `n ≤ k` (both in 0..64 as validation demands), the tag that a valid
`baile_encrypt` call writes with
`tag_len = n` is the `n`-byte prefix of the tag it writes with `tag_len = k`. -/
theorem C19_tag_truncation (P : Host) (m : Mem) (s1 s2 : Scratch)
    (ctext tag n k ad ad_len text text_len key : Nat)
    (hnk : n ≤ k)
    (hv1 : ArgsOk ctext tag n ad ad_len text text_len key)
    (hl1 : Layout ctext tag n ad ad_len text text_len key)
    (hv2 : ArgsOk ctext tag k ad ad_len text text_len key)
    (hl2 : Layout ctext tag k ad ad_len text text_len key) :
    readBytes (baile_encrypt P m s1 ctext tag n ad ad_len text text_len key).mem tag n
      = (readBytes (baile_encrypt P m s2 ctext tag k ad ad_len text text_len key).mem tag k).take
          n ∧
    readBytes (baile_encrypt P m s1 ctext tag n ad ad_len text text_len key).mem tag n
      = (List.range n).map (fun i =>
          hasherOut P (baile_tag_input P m ad ad_len text text_len key).1 i % 256) := by
  obtain ⟨a1, _⟩ := encrypt_outputs P m s1 ctext tag n ad ad_len text text_len key hv1 hl1
  obtain ⟨b1, _⟩ := encrypt_outputs P m s2 ctext tag k ad ad_len text text_len key hv2 hl2
  refine ⟨?_, ?_⟩
  · rw [a1, b1, deriveTag_take _ _ _ _ _ _ hnk]
  · rw [a1, tag_input_hasher P m _ _ _ _ _ hv1.2.2.2.2]
    simp only [DeriveTag, readBytes_length, hasherOut]

/-- Witness of C19: a 16-byte tag is the prefix of the 64-byte tag. -/
theorem C19_tag_truncation_witness :
    readBytes (baile_encrypt sampleHost sampleMem sampleScratch 300 400 16 200 3 300 70 100).mem
        400 16
      = (readBytes (baile_encrypt sampleHost sampleMem sampleScratch 300 400 64 200 3 300 70
          100).mem 400 64).take 16 :=
  (C19_tag_truncation sampleHost sampleMem sampleScratch sampleScratch 300 400 16 64 200 3 300 70 100
    (by decide) (by decide) (by decide) (by decide) (by decide)).1

/-- C17 (the loop of `blake3_hasher_finalize_xor` is safe and terminates).  The
model of the loop is a total function.  For a `size_t` length, the body runs
with `off = 0, 64, 128, ...`, exactly `len / 64` times; at every test of the
loop condition `off` is a multiple of 64, `off ≤ len` and the unsigned
`len - off` is the true difference; the loop exits with `off = 64 * (len / 64)`
and the trailing request asks for `len mod 64 ≤ 63` bytes; every request
`(off, n)` has `0 < n ≤ 64` and `off + n ≤ len`; and these requests, carried
out in order, are what `blake3_hasher_finalize_xor` computes. -/
theorem C17_loop_safety (P : Host) (h : Hasher) (m : Mem) (dst src len : Nat)
    (buf0 : List Nat) (hlen : len < SIZE) :
    (finalize_xor_offs len 0).1 = (List.range (len / 64)).map (fun k => 64 * k) ∧
    (finalize_xor_offs len 0).1.length = len / 64 ∧
    (finalize_xor_offs len 0).2 = 64 * (len / 64) ∧
    (∀ off, off ∈ (finalize_xor_offs len 0).1 ∨ off = (finalize_xor_offs len 0).2 →
      off % 64 = 0 ∧ off ≤ len ∧ sub64 len off = len - off) ∧
    (∀ off, off ∈ (finalize_xor_offs len 0).1 → 64 ≤ sub64 len off) ∧
    sub64 len (finalize_xor_offs len 0).2 = len % 64 ∧
    len % 64 ≤ 63 ∧
    (∀ q, q ∈ finalize_xor_requests len → 0 < q.2 ∧ q.2 ≤ 64 ∧ q.1 + q.2 ≤ len) ∧
    (len ≠ 0 →
      blake3_hasher_finalize_xor P h m dst src len buf0
        = (((finalize_xor_requests len).foldl (runRequest P h dst src) (m, buf0)).1,
            memzero ((finalize_xor_requests len).foldl (runRequest P h dst src) (m, buf0)).2
              64)) := by
  have ho := offs_zero len hlen
  have hexit : sub64 len (64 * (len / 64)) = len % 64 := by
    rw [sub64_eq _ _ (by omega) hlen]
    omega
  refine ⟨?_, ?_, ?_, ?_, ?_, ?_, by omega, ?_, finalize_xor_trace P h m dst src len buf0⟩
  · rw [ho]
  · rw [ho]
    simp only [List.length_map, List.length_range]
  · rw [ho]
  · intro off hoff
    rw [ho] at hoff
    rcases hoff with hmem | heq
    · obtain ⟨a, b⟩ := mem_offs len off hmem
      exact ⟨a, by omega, sub64_eq _ _ (by omega) hlen⟩
    · simp only at heq
      subst heq
      exact ⟨by omega, by omega, sub64_eq _ _ (by omega) hlen⟩
  · intro off hoff
    rw [ho] at hoff
    obtain ⟨_, b⟩ := mem_offs len off hoff
    rw [sub64_eq _ _ (by omega) hlen]
    omega
  · rw [ho]
    exact hexit
  · exact requests_bound len hlen

/-- Witness of C17: for `len = 130` the body runs at offsets 0 and 64. -/
theorem C17_loop_safety_witness :
    (finalize_xor_offs 130 0).1 = (List.range (130 / 64)).map (fun k => 64 * k) ∧
    (finalize_xor_offs 130 0).1.length = 130 / 64 ∧
    (finalize_xor_offs 130 0).2 = 64 * (130 / 64) :=
  ⟨(C17_loop_safety sampleHost Hasher.zeroed sampleMem 300 300 130 sampleScratch.buf
      (by decide)).1,
    (C17_loop_safety sampleHost Hasher.zeroed sampleMem 300 300 130 sampleScratch.buf
      (by decide)).2.1,
    (C17_loop_safety sampleHost Hasher.zeroed sampleMem 300 300 130 sampleScratch.buf
      (by decide)).2.2.1⟩

/-- C16 (erasure of transient secrets).  On every return of `baile_encrypt` and
`baile_decrypt` that follows validation, with `buf` and `tmp` the 64-byte
arrays the code declares: the hash state `h` is zeroed; the derived key `key2`
is 32 zero bytes whenever it was used (`tag_len > 0`); the keystream block
`buf` is 64 zero bytes whenever it was used (`text_len > 0`); and in
`baile_decrypt` the recomputed-tag buffer `tmp` is 64 zero bytes, whether the
call returns 0 or -6. -/
theorem C16_erasure (P : Host) (m : Mem) (s : Scratch)
    (out tag tag_len ad ad_len src text_len key : Nat)
    (hv : ArgsOk out tag tag_len ad ad_len src text_len key)
    (hbuf : s.buf.length = 64) (htmp : s.tmp.length = 64) :
    ((baile_encrypt P m s out tag tag_len ad ad_len src text_len key).loc.h = Hasher.zeroed ∧
      (tag_len ≠ 0 →
        (baile_encrypt P m s out tag tag_len ad ad_len src text_len key).loc.key2
          = List.replicate 32 0) ∧
      (text_len ≠ 0 →
        (baile_encrypt P m s out tag tag_len ad ad_len src text_len key).loc.buf
          = List.replicate 64 0)) ∧
    ((baile_decrypt P m s out tag tag_len ad ad_len src text_len key).loc.h = Hasher.zeroed ∧
      (tag_len ≠ 0 →
        (baile_decrypt P m s out tag tag_len ad ad_len src text_len key).loc.key2
          = List.replicate 32 0) ∧
      (text_len ≠ 0 →
        (baile_decrypt P m s out tag tag_len ad ad_len src text_len key).loc.buf
          = List.replicate 64 0) ∧
      (baile_decrypt P m s out tag tag_len ad ad_len src text_len key).loc.tmp
        = List.replicate 64 0 ∧
      ((baile_decrypt P m s out tag tag_len ad ad_len src text_len key).ret = 0 ∨
        (baile_decrypt P m s out tag tag_len ad ad_len src text_len key).ret = -6)) := by
  have htl : text_len < SIZE := by
    have := hv.2.2.2.2
    omega
  have htag : tag_len ≤ 64 := by
    rcases hv.2.1 with h | h
    · omega
    · exact h.2
  refine ⟨⟨?_, ?_, ?_⟩, ?_, ?_, ?_, ?_,
    decrypt_ret_cases P m s out tag tag_len ad ad_len src text_len key hv⟩
  · rw [encrypt_valid P m s _ _ _ _ _ _ _ _ hv]
  · intro ht
    rw [encrypt_valid P m s _ _ _ _ _ _ _ _ hv]
    dsimp only
    rw [if_pos ht, tag_input_key2]
  · intro h0
    rw [encrypt_valid P m s _ _ _ _ _ _ _ _ hv]
    dsimp only
    exact finalize_xor_buf P _ _ _ _ _ _ htl h0 hbuf
  · rw [decrypt_valid P m s _ _ _ _ _ _ _ _ hv]
  · intro ht
    rw [decrypt_valid P m s _ _ _ _ _ _ _ _ hv]
    dsimp only
    rw [if_pos ht, tag_input_key2]
  · intro h0
    rw [decrypt_valid P m s _ _ _ _ _ _ _ _ hv]
    dsimp only
    exact finalize_xor_buf P _ _ _ _ _ _ htl h0 hbuf
  · rw [decrypt_valid P m s _ _ _ _ _ _ _ _ hv]
    dsimp only
    apply memzero_full
    by_cases ht : tag_len ≠ 0
    · rw [if_pos ht, fillLocal_length, finalize_length, htmp]
      omega
    · rw [if_neg ht, htmp]

/-- Witness of C16: the sample call, 70 bytes of text and a 16-byte tag. -/
theorem C16_erasure_witness :
    (baile_decrypt sampleHost sampleMem sampleScratch 300 400 16 200 3 300 70 100).loc.tmp
      = List.replicate 64 0 :=
  (C16_erasure sampleHost sampleMem sampleScratch 300 400 16 200 3 300 70 100
    (by decide) (by decide) (by decide)).2.2.2.2.1

/-- C11 (constant-time tag comparison), evaluated on three `baile_decrypt`
calls that differ only in the supplied 4-byte tag: the valid tag (return 0), a
tag wrong in its first byte and a tag wrong in its last byte (both return -6).
The comparison at line 215 examines 4, 1 and 4 byte pairs: the work depends on
where the first differing byte is. -/
theorem C11_compare_work_varies :
    ((baile_decrypt sampleHost sampleTagged sampleScratch 0 400 4 200 3 0 0 100).ret = 0 ∧
      memcmp_work (decrypt_tags sampleHost sampleTagged sampleScratch 0 400 4 200 3 0 0 100).1
        (decrypt_tags sampleHost sampleTagged sampleScratch 0 400 4 200 3 0 0 100).2 4 = 4) ∧
    ((baile_decrypt sampleHost (storeByte sampleTagged 400 (sampleTagged 400 + 1)) sampleScratch
        0 400 4 200 3 0 0 100).ret = -6 ∧
      memcmp_work
        (decrypt_tags sampleHost (storeByte sampleTagged 400 (sampleTagged 400 + 1))
          sampleScratch 0 400 4 200 3 0 0 100).1
        (decrypt_tags sampleHost (storeByte sampleTagged 400 (sampleTagged 400 + 1))
          sampleScratch 0 400 4 200 3 0 0 100).2 4 = 1) ∧
    ((baile_decrypt sampleHost (storeByte sampleTagged 403 (sampleTagged 403 + 1)) sampleScratch
        0 400 4 200 3 0 0 100).ret = -6 ∧
      memcmp_work
        (decrypt_tags sampleHost (storeByte sampleTagged 403 (sampleTagged 403 + 1))
          sampleScratch 0 400 4 200 3 0 0 100).1
        (decrypt_tags sampleHost (storeByte sampleTagged 403 (sampleTagged 403 + 1))
          sampleScratch 0 400 4 200 3 0 0 100).2 4 = 4) := by
  refine ⟨⟨?_, ?_⟩, ⟨?_, ?_⟩, ⟨?_, ?_⟩⟩ <;> decide

end Baile
